import Mathlib

/-!
# vmra: a shallow embedding of the LC-3 style virtual machine of `src/main.c`

The C program keeps its machine state in two global arrays (`mem`, `reg`) and one
local (`running`); it talks to the host through `check_key`, `getchar`, `putc`,
`printf` and `puts`.  Here the state is an explicit record, the host is a pair of
input queues and an output log, and every C function of `main.c` that touches the
machine becomes a pure function on that record.

Conventions.
* A `uint16_t` is a natural number below `65536`.  C evaluates `+`, `&`, `|`, `~`,
  `<<` on `int` after integer promotion; the result is reduced `% 65536` exactly
  where the C code stores it into a `uint16_t` object or passes it as a
  `uint16_t` argument.
* `mem` and `reg` are total functions on `Nat`; the C arrays are the restrictions
  to `0 .. 65535` and `0 .. 9`.
-/

namespace Vmra

/-! ## Constants of `main.c` -/

/-- Number of memory cells, `1 << 16`. -/
abbrev MEMORY_MAX : Nat := 65536

abbrev R_R0 : Nat := 0
abbrev R_R1 : Nat := 1
abbrev R_R2 : Nat := 2
abbrev R_R3 : Nat := 3
abbrev R_R4 : Nat := 4
abbrev R_R5 : Nat := 5
abbrev R_R6 : Nat := 6
abbrev R_R7 : Nat := 7
abbrev R_PC : Nat := 8
abbrev R_COND : Nat := 9
abbrev R_COUNT : Nat := 10

abbrev OP_BR : Nat := 0
abbrev OP_ADD : Nat := 1
abbrev OP_LD : Nat := 2
abbrev OP_ST : Nat := 3
abbrev OP_JSR : Nat := 4
abbrev OP_AND : Nat := 5
abbrev OP_LDR : Nat := 6
abbrev OP_STR : Nat := 7
abbrev OP_RTI : Nat := 8
abbrev OP_NOT : Nat := 9
abbrev OP_LDI : Nat := 10
abbrev OP_STI : Nat := 11
abbrev OP_JMP : Nat := 12
abbrev OP_RES : Nat := 13
abbrev OP_LEA : Nat := 14
abbrev OP_TRAP : Nat := 15

abbrev FL_POS : Nat := 1
abbrev FL_ZRO : Nat := 2
abbrev FL_NEG : Nat := 4

abbrev TRAP_GETC : Nat := 0x20
abbrev TRAP_OUT : Nat := 0x21
abbrev TRAP_PUTS : Nat := 0x22
abbrev TRAP_IN : Nat := 0x23
abbrev TRAP_PUTSP : Nat := 0x24
abbrev TRAP_HALT : Nat := 0x25

abbrev MR_KBSR : Nat := 0xFE00
abbrev MR_KBDR : Nat := 0xFE02

abbrev PC_START : Nat := 0x3000

/-! ## Machine state -/

/-- Array store `a[i] = v` on an array modelled as a function. -/
def wr (a : Nat → Nat) (i v : Nat) : Nat → Nat :=
  fun j => if j = i then v else a j

/-- The machine together with the host it talks to.
* `mem`, `reg`: the two global arrays;
* `running`: the local of `main` that controls the loop;
* `stdin`: the bytes that successive `getchar()` calls will return (end of file after
  the last one);
* `polls`: the answers of successive `check_key()` calls (no key once exhausted);
* `out`: the bytes written to `stdout` so far;
* `char_signed`: whether plain `char` is signed on the host (it is implementation
  defined in C). -/
structure VM where
  mem : Nat → Nat
  reg : Nat → Nat
  running : Bool
  stdin : List Nat
  polls : List Bool
  out : List Nat
  char_signed : Bool

/-- Result of running a piece of the loop body. -/
inductive Outcome where
  /-- the code ran to the end of the loop body -/
  | ok (s : VM)
  /-- the code called `abort()` -/
  | abort
  /-- the code read past the end of `mem` (undefined behaviour in C) -/
  | out_of_bounds

/-- All cells and registers hold 16-bit values and input bytes are bytes. -/
def WF (s : VM) : Prop :=
  (∀ a, s.mem a < 65536) ∧ (∀ r, s.reg r < 65536) ∧ (∀ b ∈ s.stdin, b < 256)

/-! ## Host primitives -/

/-- Conversion of an `int` to `uint16_t`. -/
def to_u16 (i : Int) : Nat := (i % 65536).toNat

/-- Conversion of an `int` to plain `char`, as an `int` again. -/
def to_char (char_signed : Bool) (i : Int) : Int :=
  if char_signed then (i + 128) % 256 - 128 else i % 256

/-- The byte `putc` writes for its `int` argument (conversion to `unsigned char`). -/
def to_byte (i : Int) : Nat := (i % 256).toNat

/-- Result of `check_key()` and the host afterwards. -/
def check_key (s : VM) : Bool × VM :=
  match s.polls with
  | [] => (false, s)
  | p :: ps => (p, { s with polls := ps })

/-- Result of `getchar()` (`-1` is `EOF`) and the host afterwards. -/
def getchar (s : VM) : Int × VM :=
  match s.stdin with
  | [] => (-1, s)
  | b :: bs => ((b : Int), { s with stdin := bs })

/-- The host after `putc(c, stdout)`. -/
def putc (s : VM) (byte : Nat) : VM := { s with out := s.out ++ [byte] }

/-- Bytes of a C string literal. -/
def c_str (t : String) : List Nat := t.toList.map Char.toNat

/-! ## Helpers of `main.c` -/

/-- Model of `uint16_t extend(uint16_t x, int bit_k)`. -/
def extend (x : Nat) (bit_k : Nat) : Nat :=
  if (x >>> (bit_k - 1)) &&& 1 ≠ 0 then
    (x ||| (0xFFFF <<< bit_k)) % 65536
  else
    x

/-- Model of `void update_flags(uint16_t flag)`, on the register array. -/
def update_flags (reg : Nat → Nat) (flag : Nat) : Nat → Nat :=
  if reg flag = 0 then
    wr reg R_COND FL_ZRO
  else if reg flag >>> 15 ≠ 0 then
    wr reg R_COND FL_NEG
  else
    wr reg R_COND FL_POS

/-- Model of `uint16_t swap_16(uint16_t x)`. -/
def swap_16 (x : Nat) : Nat := ((x <<< 8) ||| (x >>> 8)) % 65536

/-- Model of `void mem_write(uint16_t addr, uint16_t val)`. -/
def mem_write (s : VM) (addr val : Nat) : VM := { s with mem := wr s.mem addr val }

/-- Model of `uint16_t mem_read(uint16_t addr)`: the value returned and the state
afterwards. -/
def mem_read (s : VM) (addr : Nat) : Nat × VM :=
  if addr = MR_KBSR then
    if (check_key s).1 then
      let s1 := (check_key s).2
      let s2 := { s1 with mem := wr s1.mem MR_KBSR (1 <<< 15) }
      let s3 := (getchar s2).2
      let s4 := { s3 with mem := wr s3.mem MR_KBDR (to_u16 (getchar s2).1) }
      (s4.mem addr, s4)
    else
      let s1 := (check_key s).2
      let s2 := { s1 with mem := wr s1.mem MR_KBSR 0 }
      (s2.mem addr, s2)
  else
    (s.mem addr, s)

/-! ## The loop body of `main`, one `case` of the `switch` per definition -/

/-- `case OP_BR`. -/
def op_BR (instr : Nat) (s : VM) : Outcome :=
  let pc_offset := extend (instr &&& 0x1FF) 9
  let cond_flag := (instr >>> 9) &&& 0x7
  if cond_flag &&& s.reg R_COND ≠ 0 then
    .ok { s with reg := wr s.reg R_PC ((s.reg R_PC + pc_offset) % 65536) }
  else
    .ok s

/-- `case OP_ADD`. -/
def op_ADD (instr : Nat) (s : VM) : Outcome :=
  let r0 := (instr >>> 9) &&& 0x7
  let r1 := (instr >>> 6) &&& 0x7
  let imm_flag := (instr >>> 5) &&& 0x1
  if imm_flag ≠ 0 then
    let imm5 := extend (instr &&& 0x1F) 5
    .ok { s with reg := update_flags (wr s.reg r0 ((s.reg r1 + imm5) % 65536)) r0 }
  else
    let r2 := instr &&& 0x7
    .ok { s with reg := update_flags (wr s.reg r0 ((s.reg r1 + s.reg r2) % 65536)) r0 }

/-- `case OP_LD`. -/
def op_LD (instr : Nat) (s : VM) : Outcome :=
  let r0 := (instr >>> 9) &&& 0x7
  let pc_offset := extend (instr &&& 0x1FF) 9
  let rd := mem_read s ((s.reg R_PC + pc_offset) % 65536)
  .ok { rd.2 with reg := update_flags (wr rd.2.reg r0 rd.1) r0 }

/-- `case OP_ST`. -/
def op_ST (instr : Nat) (s : VM) : Outcome :=
  let pc_offset := extend (instr &&& 0x1FF) 9
  let r0 := (instr >>> 9) &&& 0x7
  .ok (mem_write s ((s.reg R_PC + pc_offset) % 65536) (s.reg r0))

/-- `case OP_JSR`. -/
def op_JSR (instr : Nat) (s : VM) : Outcome :=
  let long_flag := (instr >>> 11) &&& 1
  let s1 := { s with reg := wr s.reg R_R7 (s.reg R_PC) }
  if long_flag ≠ 0 then
    let long_pc_offset := extend (instr &&& 0x7FF) 11
    .ok { s1 with reg := wr s1.reg R_PC ((s1.reg R_PC + long_pc_offset) % 65536) }
  else
    let r1 := (instr >>> 6) &&& 0x7
    .ok { s1 with reg := wr s1.reg R_PC (s1.reg r1) }

/-- `case OP_AND`. -/
def op_AND (instr : Nat) (s : VM) : Outcome :=
  let r0 := (instr >>> 9) &&& 0x7
  let r1 := (instr >>> 6) &&& 0x7
  let imm_flag := (instr >>> 5) &&& 0x1
  if imm_flag ≠ 0 then
    let imm5 := extend (instr &&& 0x1F) 5
    .ok { s with reg := update_flags (wr s.reg r0 ((s.reg r1 &&& imm5) % 65536)) r0 }
  else
    let r2 := instr &&& 0x7
    .ok { s with reg := update_flags (wr s.reg r0 ((s.reg r1 &&& s.reg r2) % 65536)) r0 }

/-- `case OP_LDR`. -/
def op_LDR (instr : Nat) (s : VM) : Outcome :=
  let r0 := (instr >>> 9) &&& 0x7
  let r1 := (instr >>> 6) &&& 0x7
  let pc_offset := extend (instr &&& 0x3F) 6
  let rd := mem_read s ((s.reg r1 + pc_offset) % 65536)
  .ok { rd.2 with reg := update_flags (wr rd.2.reg r0 rd.1) r0 }

/-- `case OP_STR`. -/
def op_STR (instr : Nat) (s : VM) : Outcome :=
  let pc_offset := extend (instr &&& 0x3F) 6
  let r0 := (instr >>> 9) &&& 0x7
  let r1 := (instr >>> 6) &&& 0x7
  .ok (mem_write s ((s.reg r1 + pc_offset) % 65536) (s.reg r0))

/-- `case OP_NOT`: `~reg[r1]` is `-reg[r1] - 1` as an `int`, stored as `uint16_t`. -/
def op_NOT (instr : Nat) (s : VM) : Outcome :=
  let r0 := (instr >>> 9) &&& 0x7
  let r1 := (instr >>> 6) &&& 0x7
  .ok { s with reg := update_flags (wr s.reg r0 (to_u16 (-(s.reg r1 : Int) - 1))) r0 }

/-- `case OP_LDI`. -/
def op_LDI (instr : Nat) (s : VM) : Outcome :=
  let r0 := (instr >>> 9) &&& 0x7
  let pc_offset := extend (instr &&& 0x1FF) 9
  let rd1 := mem_read s ((s.reg R_PC + pc_offset) % 65536)
  let rd2 := mem_read rd1.2 rd1.1
  .ok { rd2.2 with reg := update_flags (wr rd2.2.reg r0 rd2.1) r0 }

/-- `case OP_STI`. -/
def op_STI (instr : Nat) (s : VM) : Outcome :=
  let pc_offset := extend (instr &&& 0x1FF) 9
  let r0 := (instr >>> 9) &&& 0x7
  let rd := mem_read s ((s.reg R_PC + pc_offset) % 65536)
  .ok (mem_write rd.2 rd.1 (rd.2.reg r0))

/-- `case OP_JMP`. -/
def op_JMP (instr : Nat) (s : VM) : Outcome :=
  let r1 := (instr >>> 6) &&& 0x7
  .ok { s with reg := wr s.reg R_PC (s.reg r1) }

/-- `case OP_LEA`. -/
def op_LEA (instr : Nat) (s : VM) : Outcome :=
  let r0 := (instr >>> 9) &&& 0x7
  let pc_offset := extend (instr &&& 0x1FF) 9
  .ok { s with reg := update_flags (wr s.reg r0 ((s.reg R_PC + pc_offset) % 65536)) r0 }

/-- The `while (*c)` loop of `TRAP_PUTS`, at most `fuel` cells from `c` on; `none`
when the loop leaves `mem` before it meets a zero cell. -/
def puts_loop : Nat → (Nat → Nat) → Nat → List Nat → Option (List Nat)
  | 0, _, _, _ => none
  | fuel + 1, mem, c, out =>
    if mem c ≠ 0 then
      puts_loop fuel mem (c + 1) (out ++ [mem c % 256])
    else
      some out

/-- The `while (*c)` loop of `TRAP_PUTSP`, at most `fuel` cells from `c` on. -/
def putsp_loop : Nat → (Nat → Nat) → Nat → List Nat → Option (List Nat)
  | 0, _, _, _ => none
  | fuel + 1, mem, c, out =>
    if mem c ≠ 0 then
      let c0 := (mem c &&& 0xFF) % 256
      let c1 := (mem c >>> 8) % 256
      if c1 ≠ 0 then
        putsp_loop fuel mem (c + 1) (out ++ [c0] ++ [c1])
      else
        putsp_loop fuel mem (c + 1) (out ++ [c0])
    else
      some out

/-- `case OP_TRAP`. -/
def op_TRAP (instr : Nat) (s : VM) : Outcome :=
  let s1 := { s with reg := wr s.reg R_R7 (s.reg R_PC) }
  match instr &&& 0xFF with
  | 0x20 => -- TRAP_GETC
    let g := getchar s1
    .ok { g.2 with reg := update_flags (wr g.2.reg R_R0 (to_u16 g.1)) R_R0 }
  | 0x21 => -- TRAP_OUT
    .ok (putc s1 (s1.reg R_R0 % 256))
  | 0x22 => -- TRAP_PUTS
    match puts_loop (MEMORY_MAX - s1.reg R_R0) s1.mem (s1.reg R_R0) s1.out with
    | some o => .ok { s1 with out := o }
    | none => .out_of_bounds
  | 0x23 => -- TRAP_IN
    let s2 := { s1 with out := s1.out ++ c_str "enter a char: " }
    let g := getchar s2
    let c := to_char s.char_signed g.1
    let s3 := putc g.2 (to_byte c)
    .ok { s3 with reg := update_flags (wr s3.reg R_R0 (to_u16 c)) R_R0 }
  | 0x24 => -- TRAP_PUTSP
    match putsp_loop (MEMORY_MAX - s1.reg R_R0) s1.mem (s1.reg R_R0) s1.out with
    | some o => .ok { s1 with out := o }
    | none => .out_of_bounds
  | 0x25 => -- TRAP_HALT
    .ok { s1 with out := s1.out ++ c_str "HALT AND CATCH FIRE\n", running := false }
  | _ => .ok s1

/-- The `switch (opc)` of the loop body, on the fetched instruction. -/
def exec (instr : Nat) (s : VM) : Outcome :=
  match instr >>> 12 with
  | 0 => op_BR instr s
  | 1 => op_ADD instr s
  | 2 => op_LD instr s
  | 3 => op_ST instr s
  | 4 => op_JSR instr s
  | 5 => op_AND instr s
  | 6 => op_LDR instr s
  | 7 => op_STR instr s
  | 8 => .abort -- OP_RTI
  | 9 => op_NOT instr s
  | 10 => op_LDI instr s
  | 11 => op_STI instr s
  | 12 => op_JMP instr s
  | 13 => .abort -- OP_RES
  | 14 => op_LEA instr s
  | 15 => op_TRAP instr s
  | _ => .abort -- default

/-- The fetch `mem_read(reg[R_PC]++)`: the instruction word and the state with the
program counter already incremented. -/
def fetch (s : VM) : Nat × VM :=
  mem_read { s with reg := wr s.reg R_PC ((s.reg R_PC + 1) % 65536) } (s.reg R_PC)

/-- One pass through the body of `while (running)`. -/
def step (s : VM) : Outcome :=
  exec (fetch s).1 (fetch s).2

/-- The loop `while (running)`, cut off after `fuel` instructions (`none`). -/
def run : Nat → VM → Option Outcome
  | 0, s => if s.running then none else some (.ok s)
  | fuel + 1, s =>
    if s.running then
      match step s with
      | .ok s1 => run fuel s1
      | o => some o
    else
      some (.ok s)

/-- The state in which `main` enters the loop: `mem` as the image loader left it,
`reg` zero (a global) but for `R_COND` and `R_PC`. -/
def main_init (mem : Nat → Nat) (stdin : List Nat) (polls : List Bool) (char_signed : Bool) : VM :=
  { mem := mem
    reg := wr (wr (fun _ => 0) R_COND FL_ZRO) R_PC PC_START
    running := true
    stdin := stdin
    polls := polls
    out := []
    char_signed := char_signed }

/-- The states reached from the initial state of `main` by any number of completed
instruction steps.  (The loop takes a step only while `running` holds, so the states the
loop is in at the top of an iteration are among these.) -/
inductive Reachable (mem : Nat → Nat) (stdin : List Nat) (polls : List Bool) (char_signed : Bool) :
    VM → Prop where
  | init : Reachable mem stdin polls char_signed (main_init mem stdin polls char_signed)
  | step (s s1 : VM) : Reachable mem stdin polls char_signed s →
      step s = .ok s1 → Reachable mem stdin polls char_signed s1

/-! ## Sign extension as the specification words it -/

/-- Spec side: the signed integer denoted by the low `k` bits of `v`, read as a
`k`-bit two's-complement number. -/
def spec_signed_low_bits (v k : Nat) : Int :=
  if 2 ^ (k - 1) ≤ v % 2 ^ k then ((v % 2 ^ k : Nat) : Int) - 2 ^ k else ((v % 2 ^ k : Nat) : Int)

/-- Spec side: the 16-bit two's-complement encoding of a signed integer. -/
def spec_encode16 (i : Int) : Nat := (i % 65536).toNat

/-- Spec side: sign extension of the low `k` bits of `v` to 16 bits. -/
def spec_extend (v k : Nat) : Nat := spec_encode16 (spec_signed_low_bits v k)

/-! ## Image loading -/

/-- The call `fread(place, sizeof(uint16_t), count, file)` on a little-endian host:
each pair of bytes `lo hi` of the file is stored as the cell `lo + 256 * hi`.  Returns
the memory and the number of whole words read. -/
def fread_words : Nat → List Nat → (Nat → Nat) → Nat → (Nat → Nat) × Nat
  | count + 1, lo :: hi :: rest, mem, place =>
    let r := fread_words count rest (wr mem place (lo + 256 * hi)) (place + 1)
    (r.1, r.2 + 1)
  | _, _, mem, _ => (mem, 0)

/-- The loop `while (read-- > 0)` of `read_image_file`. -/
def swap_loop : Nat → (Nat → Nat) → Nat → (Nat → Nat)
  | 0, mem, _ => mem
  | read + 1, mem, place => swap_loop read (wr mem place (swap_16 (mem place))) (place + 1)

/-- Model of `void read_image_file(FILE* file)` on the bytes of the file.  `none` where
C leaves the result indeterminate: a file too short for the origin word, or one that
ends in half a word. -/
def read_image_file (mem : Nat → Nat) (file : List Nat) : Option (Nat → Nat) :=
  match file with
  | b0 :: b1 :: rest =>
    if rest.length % 2 = 0 then
      let origin := swap_16 (b0 + 256 * b1)
      let max_read_size := (MEMORY_MAX - origin) % 65536
      let r := fread_words max_read_size rest mem origin
      some (swap_loop r.2 r.1 origin)
    else
      none
  | _ => none

/-! ## Concrete states -/

/-- An array given by a list of `(index, value)` stores over zero. -/
def cells_of : List (Nat × Nat) → Nat → Nat
  | [] => fun _ => 0
  | c :: cs => wr (cells_of cs) c.1 c.2

/-- A running machine with the given memory cells, registers and input, and nothing
written yet. -/
def mk_state (cells regs : List (Nat × Nat)) (stdin : List Nat) (polls : List Bool) : VM :=
  { mem := cells_of cells
    reg := cells_of regs
    running := true
    stdin := stdin
    polls := polls
    out := []
    char_signed := true }

/-! ## Addresses the specification names -/

/-- Spec side: the address `A = (P + extend pcoffset9 9) % 2^16` of a PC-relative
instruction `instr` fetched in state `s`, with `P` the program counter after the fetch
increment. -/
def spec_pc_relative (s : VM) (instr : Nat) : Nat :=
  ((s.reg R_PC + 1) % 65536 + extend (instr &&& 0x1FF) 9) % 65536

/-- Spec side: the cell a store instruction `instr` fetched in state `s` writes: `A` for
ST, `mem[A]` for STI, `(reg[baseR] + extend offset6 6) % 2^16` for STR. -/
def spec_store_target (s : VM) (instr : Nat) : Nat :=
  if instr >>> 12 = OP_ST then spec_pc_relative s instr
  else if instr >>> 12 = OP_STI then s.mem (spec_pc_relative s instr)
  else (s.reg ((instr >>> 6) &&& 0x7) + extend (instr &&& 0x3F) 6) % 65536

/-! ## Output of PUTSP as the specification words it -/

/-- Spec side: the bytes PUTSP writes for one cell: its low byte (bits 7..0), then its
high byte (bits 15..8) when that is not zero. -/
def spec_putsp_cell (cell : Nat) : List Nat :=
  if cell / 256 % 256 ≠ 0 then [cell % 256, cell / 256 % 256] else [cell % 256]

/-! ## Image files as the specification words them -/

/-- Spec side: the bytes of an image file with origin word `o` followed by the words
`ws`, every word big-endian (high byte first). -/
def spec_image_file (o : Nat) (ws : List Nat) : List Nat :=
  [o / 256, o % 256] ++ ws.flatMap (fun w => [w / 256, w % 256])

/-! ## Lemmas on bit operations -/

theorem or_all_ones (q : Nat) (hq : q < 65536) : q ||| 65535 = 65535 := by
  apply Nat.eq_of_testBit_eq
  intro i
  rw [Nat.testBit_or]
  by_cases hi : i < 16
  · have h1 : Nat.testBit 65535 i = true := by
      interval_cases i <;> decide
    simp [h1]
  · have h1 : q < 2 ^ i := lt_of_lt_of_le hq (by
      have h2 : 2 ^ 16 ≤ 2 ^ i := Nat.pow_le_pow_right (by norm_num) (by omega)
      simpa using h2)
    rw [Nat.testBit_eq_false_of_lt h1]; simp

theorem or_high_ones (x k : Nat) (hx : x < 65536) :
    x ||| (0xFFFF <<< k) = 2 ^ k * 65535 + x % 2 ^ k := by
  have hr : x % 2 ^ k < 2 ^ k := Nat.mod_lt _ (by positivity)
  have hq : x / 2 ^ k < 65536 := lt_of_le_of_lt (Nat.div_le_self _ _) hx
  conv_lhs => rw [← Nat.div_add_mod x (2 ^ k)]
  rw [Nat.mul_add_lt_is_or hr, Nat.shiftLeft_eq, Nat.mul_comm 65535 (2 ^ k)]
  rw [Nat.mul_add_lt_is_or hr]
  apply Nat.eq_of_testBit_eq
  intro i
  simp only [Nat.testBit_or]
  have e : ∀ a, Nat.testBit (2 ^ k * a) i = (decide (k ≤ i) && Nat.testBit a (i - k)) := by
    intro a
    rw [Nat.mul_comm, ← Nat.shiftLeft_eq, Nat.testBit_shiftLeft]
  rw [e, e]
  have h2 : ∀ j, ((x / 2 ^ k).testBit j || Nat.testBit 65535 j) = Nat.testBit 65535 j := by
    intro j
    rw [← Nat.testBit_or, or_all_ones _ hq]
  have h3 := h2 (i - k)
  cases h4 : decide (k ≤ i) <;> cases h5 : (x / 2 ^ k).testBit (i - k) <;>
    cases h6 : Nat.testBit 65535 (i - k) <;> simp_all

/-- Arithmetic reading of `extend` on a 16-bit argument. -/
theorem extend_eq (x k : Nat) (hx : x < 65536) :
    extend x k =
      if x / 2 ^ (k - 1) % 2 = 1 then (2 ^ k * 65535 + x % 2 ^ k) % 65536 else x := by
  unfold extend
  rw [Nat.and_one_is_mod, Nat.shiftRight_eq_div_pow, or_high_ones x k hx]
  have h : x / 2 ^ (k - 1) % 2 ≠ 0 ↔ x / 2 ^ (k - 1) % 2 = 1 := by omega
  simp only [h]

theorem extend_lt (x k : Nat) (hx : x < 65536) : extend x k < 65536 := by
  rw [extend_eq x k hx]
  split_ifs
  · exact Nat.mod_lt _ (by norm_num)
  · exact hx

/-! ## Lemmas on the state -/

@[simp] theorem wr_same (a : Nat → Nat) (i v : Nat) : wr a i v i = v := by
  simp [wr]

theorem wr_ne (a : Nat → Nat) (i v j : Nat) (h : j ≠ i) : wr a i v j = a j := by
  simp [wr, h]

theorem update_flags_cond (reg : Nat → Nat) (r : Nat) :
    update_flags reg r R_COND =
      if reg r = 0 then FL_ZRO else if reg r >>> 15 ≠ 0 then FL_NEG else FL_POS := by
  unfold update_flags
  split_ifs <;> simp

theorem update_flags_other (reg : Nat → Nat) (r j : Nat) (h : j ≠ R_COND) :
    update_flags reg r j = reg j := by
  unfold update_flags
  split_ifs <;> simp [wr, h]

theorem update_flags_cond_mem (reg : Nat → Nat) (r : Nat) :
    update_flags reg r R_COND = FL_POS ∨ update_flags reg r R_COND = FL_ZRO ∨
      update_flags reg r R_COND = FL_NEG := by
  rw [update_flags_cond]
  split_ifs <;> simp

theorem field_le_seven (x : Nat) : x &&& 0x7 ≤ 7 := Nat.and_le_right

theorem mem_read_of_ne (s : VM) (a : Nat) (h : a ≠ MR_KBSR) : mem_read s a = (s.mem a, s) := by
  simp [mem_read, h]

@[simp] theorem check_key_mem (s : VM) : (check_key s).2.mem = s.mem := by
  unfold check_key; split <;> rfl

@[simp] theorem check_key_reg (s : VM) : (check_key s).2.reg = s.reg := by
  unfold check_key; split <;> rfl

@[simp] theorem check_key_running (s : VM) : (check_key s).2.running = s.running := by
  unfold check_key; split <;> rfl

@[simp] theorem check_key_out (s : VM) : (check_key s).2.out = s.out := by
  unfold check_key; split <;> rfl

@[simp] theorem getchar_mem (s : VM) : (getchar s).2.mem = s.mem := by
  unfold getchar; split <;> rfl

@[simp] theorem getchar_reg (s : VM) : (getchar s).2.reg = s.reg := by
  unfold getchar; split <;> rfl

@[simp] theorem getchar_running (s : VM) : (getchar s).2.running = s.running := by
  unfold getchar; split <;> rfl

@[simp] theorem getchar_out (s : VM) : (getchar s).2.out = s.out := by
  unfold getchar; split <;> rfl

theorem mem_read_reg (s : VM) (a : Nat) : (mem_read s a).2.reg = s.reg := by
  unfold mem_read
  split_ifs <;> simp

theorem mem_read_running (s : VM) (a : Nat) : (mem_read s a).2.running = s.running := by
  unfold mem_read
  split_ifs <;> simp

theorem mem_read_kbsr_val (s : VM) :
    (mem_read s MR_KBSR).1 = 0 ∨ (mem_read s MR_KBSR).1 = 0x8000 := by
  unfold mem_read
  rw [if_pos rfl]
  split_ifs <;> simp [wr]

theorem to_u16_lt (i : Int) : to_u16 i < 65536 := by
  unfold to_u16
  omega

theorem mem_read_mem_lt (s : VM) (x : Nat) (h : ∀ a, s.mem a < 65536) :
    ∀ a, (mem_read s x).2.mem a < 65536 := by
  intro a
  unfold mem_read
  split_ifs
  · simp only [wr, getchar_mem, check_key_mem]
    split_ifs
    · exact to_u16_lt _
    · decide
    · exact h a
  · simp only [wr, check_key_mem]
    split_ifs
    · norm_num
    · exact h a
  · exact h a

theorem mem_read_val_lt (s : VM) (x : Nat) (h : ∀ a, s.mem a < 65536) :
    (mem_read s x).1 < 65536 := by
  by_cases hx : x = MR_KBSR
  · subst hx
    rcases mem_read_kbsr_val s with h1 | h1 <;> rw [h1] <;> norm_num
  · rw [mem_read_of_ne s x hx]
    exact h x

theorem fetch_reg (s : VM) :
    (fetch s).2.reg = wr s.reg R_PC ((s.reg R_PC + 1) % 65536) := by
  unfold fetch
  rw [mem_read_reg]

theorem fetch_of_ne (s : VM) (h : s.reg R_PC ≠ MR_KBSR) :
    fetch s = (s.mem (s.reg R_PC), { s with reg := wr s.reg R_PC ((s.reg R_PC + 1) % 65536) }) := by
  unfold fetch
  rw [mem_read_of_ne _ _ h]

theorem fetch_kbsr_val (s : VM) (h : s.reg R_PC = MR_KBSR) :
    (fetch s).1 = 0 ∨ (fetch s).1 = 0x8000 := by
  unfold fetch
  rw [h]
  exact mem_read_kbsr_val _

/-- A fetched word whose opcode is neither `OP_BR` nor `OP_RTI` was not fetched from
the keyboard status register. -/
theorem fetch_pc_ne_kbsr (s : VM) (h0 : (fetch s).1 >>> 12 ≠ 0) (h8 : (fetch s).1 >>> 12 ≠ 8) :
    s.reg R_PC ≠ MR_KBSR := by
  intro h
  rcases fetch_kbsr_val s h with h1 | h1
  · rw [h1] at h0; exact h0 (by decide)
  · rw [h1] at h8; exact h8 (by decide)

theorem fetch_mem_lt (s : VM) (h : ∀ a, s.mem a < 65536) : ∀ a, (fetch s).2.mem a < 65536 := by
  unfold fetch
  exact mem_read_mem_lt _ _ h

/-- Every flag-setting handler ends in `reg[dr] = v; update_flags(dr)` with a 16-bit
`v`, where `dr` is the field in bits 11..9. -/
theorem flag_setting_form (instr : Nat) (s : VM) (hmem : ∀ a, s.mem a < 65536)
    (hop : instr >>> 12 = OP_ADD ∨ instr >>> 12 = OP_AND ∨ instr >>> 12 = OP_NOT ∨
      instr >>> 12 = OP_LD ∨ instr >>> 12 = OP_LDR ∨ instr >>> 12 = OP_LDI ∨
      instr >>> 12 = OP_LEA) :
    ∃ s1 R v, exec instr s = .ok s1 ∧ v < 65536 ∧
      s1.reg = update_flags (wr R ((instr >>> 9) &&& 0x7) v) ((instr >>> 9) &&& 0x7) := by
  have hm : ∀ x y : Nat, x % 65536 < 65536 ∧ (x &&& y) % 65536 < 65536 :=
    fun x y => ⟨Nat.mod_lt _ (by norm_num), Nat.mod_lt _ (by norm_num)⟩
  rcases hop with h | h | h | h | h | h | h <;> simp only [exec, h]
  · simp only [op_ADD]
    split_ifs
    · exact ⟨_, _, _, rfl, (hm _ 0).1, rfl⟩
    · exact ⟨_, _, _, rfl, (hm _ 0).1, rfl⟩
  · simp only [op_AND]
    split_ifs
    · exact ⟨_, _, _, rfl, (hm _ _).2, rfl⟩
    · exact ⟨_, _, _, rfl, (hm _ _).2, rfl⟩
  · exact ⟨_, _, _, rfl, to_u16_lt _, rfl⟩
  · exact ⟨_, _, _, rfl, mem_read_val_lt _ _ hmem, rfl⟩
  · exact ⟨_, _, _, rfl, mem_read_val_lt _ _ hmem, rfl⟩
  · exact ⟨_, _, _, rfl, mem_read_val_lt _ _ (mem_read_mem_lt _ _ hmem), rfl⟩
  · exact ⟨_, _, _, rfl, (hm _ 0).1, rfl⟩

/-- What `reg[dr] = v; update_flags(dr)` leaves in `dr` and in the condition register. -/
theorem write_then_flags (R : Nat → Nat) (dr v : Nat) (hdr : dr ≤ 7) (hv : v < 65536) :
    update_flags (wr R dr v) dr dr = v ∧
      update_flags (wr R dr v) dr R_COND =
        if v = 0 then FL_ZRO else if Nat.testBit v 15 = true then FL_NEG else FL_POS := by
  constructor
  · rw [update_flags_other _ _ _ (by unfold R_COND; omega), wr_same]
  · rw [update_flags_cond, wr_same, Nat.shiftRight_eq_div_pow, Nat.testBit_to_div_mod]
    simp only [Nat.reducePow, decide_eq_true_eq]
    have h1 : v / 32768 ≠ 0 ↔ v / 32768 % 2 = 1 := by omega
    simp only [h1]

theorem cells_of_lt (cs : List (Nat × Nat)) (h : ∀ c ∈ cs, c.2 < 65536) :
    ∀ a, cells_of cs a < 65536 := by
  induction cs with
  | nil => intro a; simp [cells_of]
  | cons c cs ih =>
    intro a
    simp only [cells_of, wr]
    split_ifs
    · exact h c (List.mem_cons_self _ _)
    · exact ih (fun d hd => h d (List.mem_cons_of_mem _ hd)) a

theorem mk_state_wf (cells regs : List (Nat × Nat)) (stdin : List Nat) (polls : List Bool)
    (hc : ∀ c ∈ cells, c.2 < 65536) (hr : ∀ c ∈ regs, c.2 < 65536)
    (hi : ∀ b ∈ stdin, b < 256) : WF (mk_state cells regs stdin polls) :=
  ⟨cells_of_lt cells hc, cells_of_lt regs hr, hi⟩

theorem fetch_fst_of_ne (s : VM) (h : s.reg R_PC ≠ MR_KBSR) :
    (fetch s).1 = s.mem (s.reg R_PC) := by
  rw [fetch_of_ne s h]

/-- Away from the keyboard status register, a step executes the cell at the program
counter in the state with the counter incremented. -/
theorem step_of_ne (s : VM) (h : s.reg R_PC ≠ MR_KBSR) :
    step s = exec (s.mem (s.reg R_PC))
      { s with reg := wr s.reg R_PC ((s.reg R_PC + 1) % 65536) } := by
  unfold step
  rw [fetch_of_ne s h]

theorem exec_LD (instr : Nat) (s : VM) (h : instr >>> 12 = OP_LD) :
    exec instr s = op_LD instr s := by
  simp only [exec, h]

theorem exec_LDI (instr : Nat) (s : VM) (h : instr >>> 12 = OP_LDI) :
    exec instr s = op_LDI instr s := by
  simp only [exec, h]

theorem exec_ST (instr : Nat) (s : VM) (h : instr >>> 12 = OP_ST) :
    exec instr s = op_ST instr s := by
  simp only [exec, h]

theorem exec_STI (instr : Nat) (s : VM) (h : instr >>> 12 = OP_STI) :
    exec instr s = op_STI instr s := by
  simp only [exec, h]

theorem exec_STR (instr : Nat) (s : VM) (h : instr >>> 12 = OP_STR) :
    exec instr s = op_STR instr s := by
  simp only [exec, h]

theorem exec_JSR (instr : Nat) (s : VM) (h : instr >>> 12 = OP_JSR) :
    exec instr s = op_JSR instr s := by
  simp only [exec, h]

theorem exec_JMP (instr : Nat) (s : VM) (h : instr >>> 12 = OP_JMP) :
    exec instr s = op_JMP instr s := by
  simp only [exec, h]

theorem exec_TRAP (instr : Nat) (s : VM) (h : instr >>> 12 = OP_TRAP) :
    exec instr s = op_TRAP instr s := by
  simp only [exec, h]

theorem op_LD_of_ne (instr : Nat) (s : VM)
    (hA : (s.reg R_PC + extend (instr &&& 0x1FF) 9) % 65536 ≠ MR_KBSR) :
    op_LD instr s =
      .ok { s with
            reg := update_flags
              (wr s.reg ((instr >>> 9) &&& 0x7)
                (s.mem ((s.reg R_PC + extend (instr &&& 0x1FF) 9) % 65536)))
              ((instr >>> 9) &&& 0x7) } := by
  simp only [op_LD]
  rw [mem_read_of_ne _ _ hA]

theorem op_LDI_of_ne (instr : Nat) (s : VM)
    (hA : (s.reg R_PC + extend (instr &&& 0x1FF) 9) % 65536 ≠ MR_KBSR)
    (hAA : s.mem ((s.reg R_PC + extend (instr &&& 0x1FF) 9) % 65536) ≠ MR_KBSR) :
    op_LDI instr s =
      .ok { s with
            reg := update_flags
              (wr s.reg ((instr >>> 9) &&& 0x7)
                (s.mem (s.mem ((s.reg R_PC + extend (instr &&& 0x1FF) 9) % 65536))))
              ((instr >>> 9) &&& 0x7) } := by
  simp only [op_LDI]
  rw [mem_read_of_ne _ _ hA]
  dsimp only
  rw [mem_read_of_ne _ _ hAA]

theorem op_STI_of_ne (instr : Nat) (s : VM)
    (hA : (s.reg R_PC + extend (instr &&& 0x1FF) 9) % 65536 ≠ MR_KBSR) :
    op_STI instr s =
      .ok { s with
            mem := wr s.mem (s.mem ((s.reg R_PC + extend (instr &&& 0x1FF) 9) % 65536))
              (s.reg ((instr >>> 9) &&& 0x7)) } := by
  simp only [op_STI, mem_write]
  rw [mem_read_of_ne _ _ hA]

/-! ## C1, C2: sign extension -/

/-- C1 (as stated, refuted): it is not the case that for every 16-bit `v` and every
width `k` in 5, 6, 9, 11 `extend v k` is the 16-bit encoding of the signed value of the
low `k` bits of `v`: `extend 0x20 5` is `0x20`, while the low five bits of `0x20` denote
`0`. -/
theorem C1_extend_high_bits_counterexample :
    extend 0x20 5 = 0x20 ∧ spec_extend 0x20 5 = 0 ∧
      ¬ (∀ v k : Nat, v < 65536 → (k = 5 ∨ k = 6 ∨ k = 9 ∨ k = 11) →
        extend v k = spec_extend v k) := by
  refine ⟨by decide, by decide, ?_⟩
  intro h
  have h1 := h 0x20 5 (by decide) (Or.inl rfl)
  revert h1
  decide

/-- C1 (amended): for every 16-bit `v` and every width `k` in 5, 6, 9, 11, when bit
`k - 1` of `v` is set or `v` has no bit set at position `k` or above, `extend v k` is the
16-bit two's-complement encoding of the signed integer denoted by the low `k` bits of
`v`; in the remaining case (bit `k - 1` clear, some higher bit set) `extend v k` is `v`
unchanged. -/
theorem C1_extend_sign_extends (v k : Nat) (hv : v < 65536)
    (hk : k = 5 ∨ k = 6 ∨ k = 9 ∨ k = 11) :
    extend v k = if Nat.testBit v (k - 1) = true ∨ v < 2 ^ k then spec_extend v k else v := by
  rw [extend_eq v k hv, Nat.testBit_to_div_mod]
  unfold spec_extend spec_encode16 spec_signed_low_bits
  rcases hk with rfl | rfl | rfl | rfl <;>
    simp only [Nat.reducePow, Nat.reduceSub, Nat.reduceMul, decide_eq_true_eq] <;>
    split_ifs <;> omega

/-- Instance of C1 (amended): `extend 0x1F5 9` is `0xFFF5`, the encoding of `-11`. -/
theorem C1_extend_sign_extends_witness :
    extend 0x1F5 9 = 0xFFF5 ∧
      extend 0x1F5 9 =
        if Nat.testBit 0x1F5 (9 - 1) = true ∨ 0x1F5 < 2 ^ 9 then spec_extend 0x1F5 9 else 0x1F5 :=
  ⟨by decide, C1_extend_sign_extends 0x1F5 9 (by decide) (Or.inr (Or.inr (Or.inl rfl)))⟩

/-- C2: `extend` is idempotent at a fixed width: for every 16-bit `v` and every `k` in
5, 6, 9, 11, `extend (extend v k) k = extend v k`. -/
theorem C2_extend_idempotent (v k : Nat) (hv : v < 65536)
    (hk : k = 5 ∨ k = 6 ∨ k = 9 ∨ k = 11) :
    extend (extend v k) k = extend v k := by
  rw [extend_eq (extend v k) k (extend_lt v k hv), extend_eq v k hv]
  rcases hk with rfl | rfl | rfl | rfl <;>
    simp only [Nat.reducePow, Nat.reduceSub, Nat.reduceMul] <;>
    split_ifs <;> omega

/-- Instance of C2 at `v = 0x0030`, `k = 5`, where the first extension gives `0xFFF0`. -/
theorem C2_extend_idempotent_witness :
    extend 0xFFF0 5 = 0xFFF0 ∧ extend (extend 0x0030 5) 5 = extend 0x0030 5 :=
  ⟨by decide, C2_extend_idempotent 0x0030 5 (by decide) (Or.inl rfl)⟩

/-! ## C3, C4: the condition register -/

/-- C3: in every well-formed state whose fetched instruction has a flag-setting opcode
(ADD, AND, NOT, LD, LDR, LDI, LEA), the step completes, and afterwards the condition
register is one of POSITIVE, ZERO, NEGATIVE as fixed by the value now in the destination
register `dr` (bits 11..9 of the instruction): ZERO iff `dr` holds 0, NEGATIVE iff bit 15
of `dr` is set, POSITIVE otherwise. -/
theorem C3_flag_setting_opcodes (s : VM) (hwf : WF s)
    (hop : (fetch s).1 >>> 12 = OP_ADD ∨ (fetch s).1 >>> 12 = OP_AND ∨
      (fetch s).1 >>> 12 = OP_NOT ∨ (fetch s).1 >>> 12 = OP_LD ∨
      (fetch s).1 >>> 12 = OP_LDR ∨ (fetch s).1 >>> 12 = OP_LDI ∨
      (fetch s).1 >>> 12 = OP_LEA) :
    ∃ s1, step s = .ok s1 ∧
      (s1.reg R_COND = FL_POS ∨ s1.reg R_COND = FL_ZRO ∨ s1.reg R_COND = FL_NEG) ∧
      (s1.reg R_COND = FL_ZRO ↔ s1.reg (((fetch s).1 >>> 9) &&& 0x7) = 0) ∧
      (s1.reg R_COND = FL_NEG ↔ Nat.testBit (s1.reg (((fetch s).1 >>> 9) &&& 0x7)) 15 = true) ∧
      (s1.reg R_COND = FL_POS ↔
        (s1.reg (((fetch s).1 >>> 9) &&& 0x7) ≠ 0 ∧
          Nat.testBit (s1.reg (((fetch s).1 >>> 9) &&& 0x7)) 15 = false)) := by
  obtain ⟨s1, R, v, h1, hv, hreg⟩ :=
    flag_setting_form (fetch s).1 (fetch s).2 (fetch_mem_lt s hwf.1) hop
  obtain ⟨hd, hc⟩ := write_then_flags R _ v (field_le_seven ((fetch s).1 >>> 9)) hv
  refine ⟨s1, h1, ?_⟩
  rw [hreg, hd, hc]
  by_cases h0 : v = 0
  · subst h0
    simp
  · cases hb : Nat.testBit v 15 <;> simp [h0]

/-- Instance of C3: `ADD R1, R1, #-1` on `R1 = 0` leaves `R1 = 0xFFFF` and NEGATIVE. -/
theorem C3_flag_setting_opcodes_witness :
    ∃ s1, step (mk_state [(0x3000, 0x127F)] [(R_PC, 0x3000), (R_COND, FL_ZRO)] [] []) = .ok s1 ∧
      s1.reg R_R1 = 0xFFFF ∧ s1.reg R_COND = FL_NEG := by
  obtain ⟨s1, h1, _, _, h2, _⟩ :=
    C3_flag_setting_opcodes (mk_state [(0x3000, 0x127F)] [(R_PC, 0x3000), (R_COND, FL_ZRO)] [] [])
      (mk_state_wf _ _ _ _ (by decide) (by decide) (by decide)) (Or.inl (by decide))
  have h3 : s1.reg R_R1 = 0xFFFF := by
    injection h1 with h1
    subst h1
    decide
  have h4 : Nat.testBit (s1.reg R_R1) 15 = true := by rw [h3]; decide
  exact ⟨s1, h1, h3, h2.2 h4⟩

/-- The condition register after any handler is either what it was or one of the three
flags. -/
theorem exec_cond (instr : Nat) (s s1 : VM) (h : exec instr s = .ok s1) :
    s1.reg R_COND = s.reg R_COND ∨
      (s1.reg R_COND = FL_POS ∨ s1.reg R_COND = FL_ZRO ∨ s1.reg R_COND = FL_NEG) := by
  unfold exec at h
  split at h
  · simp only [op_BR] at h
    split_ifs at h <;> injection h with h <;> subst h <;> simp [wr]
  · simp only [op_ADD] at h
    split_ifs at h <;> injection h with h <;> subst h <;> exact Or.inr (update_flags_cond_mem _ _)
  · simp only [op_LD] at h
    injection h with h; subst h; exact Or.inr (update_flags_cond_mem _ _)
  · simp only [op_ST, mem_write] at h
    injection h with h; subst h; exact Or.inl rfl
  · simp only [op_JSR] at h
    split_ifs at h <;> injection h with h <;> subst h <;> simp [wr]
  · simp only [op_AND] at h
    split_ifs at h <;> injection h with h <;> subst h <;> exact Or.inr (update_flags_cond_mem _ _)
  · simp only [op_LDR] at h
    injection h with h; subst h; exact Or.inr (update_flags_cond_mem _ _)
  · simp only [op_STR, mem_write] at h
    injection h with h; subst h; exact Or.inl rfl
  · cases h
  · simp only [op_NOT] at h
    injection h with h; subst h; exact Or.inr (update_flags_cond_mem _ _)
  · simp only [op_LDI] at h
    injection h with h; subst h; exact Or.inr (update_flags_cond_mem _ _)
  · simp only [op_STI, mem_write] at h
    injection h with h; subst h
    simp [mem_read_reg]
  · simp only [op_JMP] at h
    injection h with h; subst h; simp [wr]
  · cases h
  · simp only [op_LEA] at h
    injection h with h; subst h; exact Or.inr (update_flags_cond_mem _ _)
  · unfold op_TRAP at h
    simp only at h
    split at h
    · injection h with h; subst h; exact Or.inr (update_flags_cond_mem _ _)
    · injection h with h; subst h; simp [putc, wr]
    · split at h
      · injection h with h; subst h; simp [wr]
      · cases h
    · injection h with h; subst h; exact Or.inr (update_flags_cond_mem _ _)
    · split at h
      · injection h with h; subst h; simp [wr]
      · cases h
    · injection h with h; subst h; simp [wr]
    · injection h with h; subst h; simp [wr]
  · cases h

theorem step_cond (s s1 : VM) (h : step s = .ok s1) :
    s1.reg R_COND = s.reg R_COND ∨
      (s1.reg R_COND = FL_POS ∨ s1.reg R_COND = FL_ZRO ∨ s1.reg R_COND = FL_NEG) := by
  have h1 := exec_cond _ _ _ h
  rw [fetch_reg, wr_ne _ _ _ _ (by decide)] at h1
  exact h1

/-- C4: in the state in which `main` enters the loop (COND = ZERO, PC = 0x3000) and in
every state reached from it by completed instruction steps, whatever the memory and the
keyboard input, the condition register is exactly one of POSITIVE (1), ZERO (2),
NEGATIVE (4). -/
theorem C4_cond_invariant (mem : Nat → Nat) (stdin : List Nat) (polls : List Bool)
    (char_signed : Bool) (s : VM) (h : Reachable mem stdin polls char_signed s) :
    s.reg R_COND = FL_POS ∨ s.reg R_COND = FL_ZRO ∨ s.reg R_COND = FL_NEG := by
  induction h with
  | init => right; left; simp [main_init, wr]
  | step s s1 _ hstep ih =>
    rcases step_cond s s1 hstep with h1 | h1
    · rw [h1]; exact ih
    · exact h1

/-- Instance of C4: the state after one `ADD R1, R1, #-1` from the initial state. -/
theorem C4_cond_invariant_witness :
    ∃ s1, step (main_init (cells_of [(0x3000, 0x127F)]) [] [] true) = .ok s1 ∧
      s1.reg R_R1 = 0xFFFF ∧
      (s1.reg R_COND = FL_POS ∨ s1.reg R_COND = FL_ZRO ∨ s1.reg R_COND = FL_NEG) :=
  ⟨_, rfl, by decide,
    C4_cond_invariant (cells_of [(0x3000, 0x127F)]) [] [] true _
      (Reachable.step _ _ Reachable.init rfl)⟩

/-! ## C5: immediate and register forms of ADD and AND -/

/-- C5: for every state and every pair of instruction words of the same opcode ADD (or
both AND) with the same `dr` and `sr1` fields, one in immediate form and one in register
form, if the register named by the `sr2` field holds `extend imm5 5` for the `imm5` field
of the immediate form, then executing either word from that state gives the same
outcome: the same registers, flags, program counter, memory and host. -/
theorem C5_imm_reg_agree (s : VM) (i_imm i_reg : Nat)
    (hop : (i_imm >>> 12 = OP_ADD ∧ i_reg >>> 12 = OP_ADD) ∨
      (i_imm >>> 12 = OP_AND ∧ i_reg >>> 12 = OP_AND))
    (hdr : (i_imm >>> 9) &&& 0x7 = (i_reg >>> 9) &&& 0x7)
    (hsr1 : (i_imm >>> 6) &&& 0x7 = (i_reg >>> 6) &&& 0x7)
    (himm : (i_imm >>> 5) &&& 0x1 = 1) (hreg : (i_reg >>> 5) &&& 0x1 = 0)
    (hval : s.reg (i_reg &&& 0x7) = extend (i_imm &&& 0x1F) 5) :
    exec i_imm s = exec i_reg s := by
  rcases hop with ⟨h1, h2⟩ | ⟨h1, h2⟩
  · simp only [exec, h1, h2, op_ADD, himm, hreg, hdr, hsr1, hval]
    simp
  · simp only [exec, h1, h2, op_AND, himm, hreg, hdr, hsr1, hval]
    simp

/-- Instance of C5: `ADD R1, R1, #-1` and `ADD R1, R1, R2` with `R2 = 0xFFFF`. -/
theorem C5_imm_reg_agree_witness :
    exec 0x127F (mk_state [] [(R_R1, 5), (R_R2, 0xFFFF), (R_PC, 0x3001), (R_COND, FL_ZRO)] [] []) =
      exec 0x1242 (mk_state [] [(R_R1, 5), (R_R2, 0xFFFF), (R_PC, 0x3001), (R_COND, FL_ZRO)] [] []) :=
  C5_imm_reg_agree _ 0x127F 0x1242 (Or.inl ⟨by decide, by decide⟩) (by decide) (by decide)
    (by decide) (by decide) (by decide)

/-! ## C6, C7: loads and stores -/

/-- C6: let `P` be the program counter after the fetch increment and
`A = (P + extend pcoffset9 9) % 2^16`.  When the fetched instruction is LD and `A` is not
the keyboard status address, the step completes with `dr = mem[A]`; when it is LDI and
neither `A` nor `mem[A]` is the keyboard status address, the step completes with
`dr = mem[mem[A]]`.  In both cases memory is unchanged and no register other than `dr`,
PC and COND changes.  (An LD or LDI word is never fetched from the keyboard status
address, so the fetch itself reads an ordinary cell.) -/
theorem C6_ld_ldi_dereference (s : VM)
    (hop : (fetch s).1 >>> 12 = OP_LD ∨ (fetch s).1 >>> 12 = OP_LDI)
    (hA : spec_pc_relative s (fetch s).1 ≠ MR_KBSR)
    (hAA : (fetch s).1 >>> 12 = OP_LDI → s.mem (spec_pc_relative s (fetch s).1) ≠ MR_KBSR) :
    s.reg R_PC ≠ MR_KBSR ∧
    ∃ s1, step s = .ok s1 ∧
      s1.reg (((fetch s).1 >>> 9) &&& 0x7) =
        (if (fetch s).1 >>> 12 = OP_LD then s.mem (spec_pc_relative s (fetch s).1)
         else s.mem (s.mem (spec_pc_relative s (fetch s).1))) ∧
      s1.mem = s.mem ∧
      (∀ r, r ≠ ((fetch s).1 >>> 9) &&& 0x7 → r ≠ R_PC → r ≠ R_COND → s1.reg r = s.reg r) ∧
      s1.reg R_PC = (s.reg R_PC + 1) % 65536 := by
  unfold spec_pc_relative at hA hAA ⊢
  have hpc : s.reg R_PC ≠ MR_KBSR :=
    fetch_pc_ne_kbsr s (by rcases hop with h | h <;> rw [h] <;> decide)
      (by rcases hop with h | h <;> rw [h] <;> decide)
  refine ⟨hpc, ?_⟩
  rw [step_of_ne s hpc]
  rw [fetch_fst_of_ne s hpc] at hop hA hAA ⊢
  generalize s.mem (s.reg R_PC) = instr at *
  have hdr : (instr >>> 9) &&& 0x7 ≤ 7 := field_le_seven _
  rcases hop with h | h
  · rw [exec_LD _ _ h, op_LD_of_ne _ _ (by simpa using hA)]
    refine ⟨_, rfl, ?_, rfl, ?_, ?_⟩ <;> dsimp only
    · rw [update_flags_other _ _ _ (by unfold R_COND; omega), wr_same, wr_same, if_pos h]
    · intro r h1 h2 h3
      rw [update_flags_other _ _ _ h3, wr_ne _ _ _ _ h1, wr_ne _ _ _ _ h2]
    · rw [update_flags_other _ _ _ (by decide), wr_ne _ _ _ _ (by unfold R_PC; omega), wr_same]
  · have hAA1 := hAA h
    rw [exec_LDI _ _ h, op_LDI_of_ne _ _ (by simpa using hA) (by simpa using hAA1)]
    refine ⟨_, rfl, ?_, rfl, ?_, ?_⟩ <;> dsimp only
    · rw [update_flags_other _ _ _ (by unfold R_COND; omega), wr_same, wr_same,
        if_neg (by rw [h]; decide)]
    · intro r h1 h2 h3
      rw [update_flags_other _ _ _ h3, wr_ne _ _ _ _ h1, wr_ne _ _ _ _ h2]
    · rw [update_flags_other _ _ _ (by decide), wr_ne _ _ _ _ (by unfold R_PC; omega), wr_same]

/-- Instance of C6: `LDI R2, #1` at 0x3000 with `mem[0x3002] = 0x4000` and
`mem[0x4000] = 0xBEEF`. -/
theorem C6_ld_ldi_dereference_witness :
    ∃ s1, step (mk_state [(0x3000, 0xA401), (0x3002, 0x4000), (0x4000, 0xBEEF)]
        [(R_PC, 0x3000), (R_COND, FL_ZRO)] [] []) = .ok s1 ∧
      s1.reg R_R2 = 0xBEEF ∧
      s1.mem = cells_of [(0x3000, 0xA401), (0x3002, 0x4000), (0x4000, 0xBEEF)] := by
  obtain ⟨_, s1, h1, h2, h3, _, _⟩ :=
    C6_ld_ldi_dereference (mk_state [(0x3000, 0xA401), (0x3002, 0x4000), (0x4000, 0xBEEF)]
      [(R_PC, 0x3000), (R_COND, FL_ZRO)] [] []) (Or.inr (by decide)) (by decide)
      (fun _ => by decide)
  exact ⟨s1, h1, h2.trans (by decide), h3⟩

/-- C7: when the fetched instruction is ST, STI (with `A` not the keyboard status
address) or STR, the step completes; afterwards the target cell (`A` for ST, `mem[A]` for
STI, `(reg[baseR] + extend offset6 6) % 2^16` for STR) holds the value of `sr`, every
other memory cell is unchanged, and R0..R7 and the condition register are unchanged.
No condition is put on the target address, so this covers 0xFE00 and 0xFE02. -/
theorem C7_stores_are_plain_writes (s : VM)
    (hop : (fetch s).1 >>> 12 = OP_ST ∨ (fetch s).1 >>> 12 = OP_STI ∨
      (fetch s).1 >>> 12 = OP_STR)
    (hA : (fetch s).1 >>> 12 = OP_STI → spec_pc_relative s (fetch s).1 ≠ MR_KBSR) :
    ∃ s1, step s = .ok s1 ∧
      s1.mem (spec_store_target s (fetch s).1) = s.reg (((fetch s).1 >>> 9) &&& 0x7) ∧
      (∀ a, a ≠ spec_store_target s (fetch s).1 → s1.mem a = s.mem a) ∧
      (∀ r, r ≤ 7 → s1.reg r = s.reg r) ∧
      s1.reg R_COND = s.reg R_COND := by
  have hpc : s.reg R_PC ≠ MR_KBSR :=
    fetch_pc_ne_kbsr s (by rcases hop with h | h | h <;> rw [h] <;> decide)
      (by rcases hop with h | h | h <;> rw [h] <;> decide)
  rw [step_of_ne s hpc]
  rw [fetch_fst_of_ne s hpc] at hop hA ⊢
  generalize s.mem (s.reg R_PC) = instr at *
  have hsr : (instr >>> 9) &&& 0x7 ≤ 7 := field_le_seven _
  have hbr : (instr >>> 6) &&& 0x7 ≤ 7 := field_le_seven _
  unfold spec_store_target
  unfold spec_pc_relative at hA ⊢
  have hreg : ∀ r, r ≤ 7 → wr s.reg R_PC ((s.reg R_PC + 1) % 65536) r = s.reg r :=
    fun r hr => wr_ne _ _ _ _ (by unfold R_PC; omega)
  have hcond : wr s.reg R_PC ((s.reg R_PC + 1) % 65536) R_COND = s.reg R_COND :=
    wr_ne _ _ _ _ (by decide)
  rcases hop with h | h | h
  · rw [exec_ST _ _ h, if_pos h]
    refine ⟨_, rfl, ?_, ?_, hreg, hcond⟩ <;>
      simp only [op_ST, mem_write, wr_same, hreg _ hsr]
    intro a ha
    exact wr_ne _ _ _ _ ha
  · rw [exec_STI _ _ h, op_STI_of_ne _ _ (by simpa using hA h), if_neg (by rw [h]; decide),
      if_pos h]
    refine ⟨_, rfl, ?_, ?_, hreg, hcond⟩ <;> simp only [wr_same, hreg _ hsr]
    intro a ha
    exact wr_ne _ _ _ _ ha
  · rw [exec_STR _ _ h, if_neg (by rw [h]; decide), if_neg (by rw [h]; decide)]
    refine ⟨_, rfl, ?_, ?_, hreg, hcond⟩ <;>
      simp only [op_STR, mem_write, wr_same, hreg _ hsr, hreg _ hbr]
    intro a ha
    exact wr_ne _ _ _ _ ha

/-- Instance of C7: `STR R1, R2, #0` with `R2 = 0xFE00` stores `R1` at the keyboard
status address and touches nothing else, with a key pending. -/
theorem C7_stores_are_plain_writes_witness :
    ∃ s1, step (mk_state [(0x3000, 0x7280), (0xFE00, 0x0007)]
        [(R_R1, 0x1234), (R_R2, 0xFE00), (R_PC, 0x3000), (R_COND, FL_NEG)] [] [true]) = .ok s1 ∧
      s1.mem 0xFE00 = 0x1234 ∧ s1.mem 0xFE02 = 0 ∧ s1.reg R_COND = FL_NEG := by
  obtain ⟨s1, h1, h2, h3, _, h4⟩ :=
    C7_stores_are_plain_writes (mk_state [(0x3000, 0x7280), (0xFE00, 0x0007)]
      [(R_R1, 0x1234), (R_R2, 0xFE00), (R_PC, 0x3000), (R_COND, FL_NEG)] [] [true])
      (Or.inr (Or.inr (by decide))) (fun h => absurd h (by decide))
  exact ⟨s1, h1, h2.trans (by decide), (h3 0xFE02 (by decide)).trans (by decide),
    h4.trans (by decide)⟩

/-! ## C8: the halt program -/

theorem run_of_not_running (fuel : Nat) (s : VM) (h : s.running = false) :
    run fuel s = some (.ok s) := by
  cases fuel <;> simp [run, h]

theorem run_succ_of_step (fuel : Nat) (s s1 : VM) (hr : s.running = true)
    (hs : step s = .ok s1) : run (fuel + 1) s = run fuel s1 := by
  simp only [run, hr, if_true, hs]

theorem halt_image_loaded :
    read_image_file (fun _ => 0) [0x30, 0x00, 0xF0, 0x25] =
      some (wr (wr (fun _ => 0) 0x3000 0x25F0) 0x3000 0xF025) := by
  have h : swap_16 (0x30 + 256 * 0x00) = 0x3000 := by decide
  simp only [read_image_file, List.length_cons, List.length_nil, h]
  simp [fread_words, swap_loop, swap_16]

theorem halt_image_step (m : Nat → Nat) (hm : m 0x3000 = 0xF025) (stdin : List Nat)
    (polls : List Bool) (char_signed : Bool) :
    step (main_init m stdin polls char_signed) =
      .ok { main_init m stdin polls char_signed with
            reg := wr (wr (main_init m stdin polls char_signed).reg R_PC 0x3001) R_R7 0x3001
            running := false
            out := c_str "HALT AND CATCH FIRE\n" } := by
  have h1 : (main_init m stdin polls char_signed).reg R_PC = 0x3000 := rfl
  have h2 : (main_init m stdin polls char_signed).mem 0x3000 = 0xF025 := hm
  rw [step_of_ne _ (by rw [h1]; decide), h1, h2, exec_TRAP _ _ (by decide)]
  simp [op_TRAP, main_init]

/-- C8: load the image with origin 0x3000 and the single word 0xF025 into zero memory and
enter the loop at PC = 0x3000, with any input.  The load leaves 0xF025 at 0x3000 and zero
elsewhere; the first instruction step completes and clears `running`, so the loop, which
has not ended after no instruction, ends after exactly one; the console holds exactly
the halt notice; and every memory cell is as it was before the run. -/
theorem C8_halt_program (stdin : List Nat) (polls : List Bool) (char_signed : Bool) :
    ∃ m s1, read_image_file (fun _ => 0) [0x30, 0x00, 0xF0, 0x25] = some m ∧
      (∀ a, m a = if a = 0x3000 then 0xF025 else 0) ∧
      step (main_init m stdin polls char_signed) = .ok s1 ∧
      s1.running = false ∧
      run 0 (main_init m stdin polls char_signed) = none ∧
      (∀ fuel, run (fuel + 1) (main_init m stdin polls char_signed) = some (.ok s1)) ∧
      s1.out = c_str "HALT AND CATCH FIRE\n" ∧
      (∀ a, s1.mem a = m a) := by
  have hstep := halt_image_step (wr (wr (fun _ => 0) 0x3000 0x25F0) 0x3000 0xF025)
    (wr_same _ _ _) stdin polls char_signed
  refine ⟨_, _, halt_image_loaded, ?_, hstep, rfl, rfl, ?_, rfl, fun _ => rfl⟩
  · intro a
    simp only [wr]
    split_ifs <;> rfl
  · intro fuel
    rw [run_succ_of_step _ _ _ rfl hstep]
    exact run_of_not_running _ _ rfl

/-! ## C9: call and return -/

theorem op_JSR_link (instr : Nat) (s : VM) :
    ∃ s1, op_JSR instr s = .ok s1 ∧ s1.reg R_R7 = s.reg R_PC := by
  simp only [op_JSR]
  split_ifs
  · exact ⟨_, rfl, by simp [wr]⟩
  · exact ⟨_, rfl, by simp [wr]⟩

/-- C9: when the instruction fetched at address `a` (the program counter of `s`) is a
JSR, in long or register form, the step completes; and if the instruction fetched next
is JMP with `baseR = R7`, that step completes too and leaves PC = `(a + 1) % 2^16`. -/
theorem C9_jsr_jmp_round_trip (s : VM) (hjsr : (fetch s).1 >>> 12 = OP_JSR) :
    ∃ s1, step s = .ok s1 ∧
      ((fetch s1).1 >>> 12 = OP_JMP → ((fetch s1).1 >>> 6) &&& 0x7 = R_R7 →
        ∃ s2, step s1 = .ok s2 ∧ s2.reg R_PC = (s.reg R_PC + 1) % 65536) := by
  have hpc : s.reg R_PC ≠ MR_KBSR :=
    fetch_pc_ne_kbsr s (by rw [hjsr]; decide) (by rw [hjsr]; decide)
  rw [step_of_ne s hpc]
  rw [fetch_fst_of_ne s hpc] at hjsr
  rw [exec_JSR _ _ hjsr]
  obtain ⟨s1, h1, h7⟩ := op_JSR_link (s.mem (s.reg R_PC))
    { s with reg := wr s.reg R_PC ((s.reg R_PC + 1) % 65536) }
  refine ⟨s1, h1, ?_⟩
  intro hjmp hbase
  have hpc1 : s1.reg R_PC ≠ MR_KBSR :=
    fetch_pc_ne_kbsr s1 (by rw [hjmp]; decide) (by rw [hjmp]; decide)
  rw [step_of_ne s1 hpc1]
  rw [fetch_fst_of_ne s1 hpc1] at hjmp hbase
  rw [exec_JMP _ _ hjmp]
  refine ⟨_, rfl, ?_⟩
  simp only [op_JMP, wr_same, hbase]
  rw [wr_ne _ _ _ _ (by decide), h7]
  simp

/-- Instance of C9: `JSR #1` at 0x3000 followed by `JMP R7` at 0x3002 returns to
0x3001. -/
theorem C9_jsr_jmp_round_trip_witness :
    ∃ s1 s2, step (mk_state [(0x3000, 0x4801), (0x3002, 0xC1C0)]
        [(R_PC, 0x3000), (R_COND, FL_ZRO)] [] []) = .ok s1 ∧
      step s1 = .ok s2 ∧ s1.reg R_PC = 0x3002 ∧ s2.reg R_PC = 0x3001 := by
  obtain ⟨s1, h1, h2⟩ :=
    C9_jsr_jmp_round_trip (mk_state [(0x3000, 0x4801), (0x3002, 0xC1C0)]
      [(R_PC, 0x3000), (R_COND, FL_ZRO)] [] []) (by decide)
  have h3 : (fetch s1).1 >>> 12 = OP_JMP ∧ ((fetch s1).1 >>> 6) &&& 0x7 = R_R7 ∧
      s1.reg R_PC = 0x3002 := by
    injection h1 with h1
    subst h1
    decide
  obtain ⟨s2, h4, h5⟩ := h2 h3.1 h3.2.1
  exact ⟨s1, s2, h1, h4, h3.2.2, h5.trans (by decide)⟩

/-! ## C10: TRAP PUTS -/

/-- The PUTS loop started at `c` with a first zero cell `n` cells on, and fuel to reach
it, appends the low bytes of the `n` cells before it. -/
theorem puts_loop_spec (mem : Nat → Nat) :
    ∀ (n fuel c : Nat) (out : List Nat), n < fuel → mem (c + n) = 0 →
      (∀ i, i < n → mem (c + i) ≠ 0) →
      puts_loop fuel mem c out = some (out ++ (List.range' c n).map (fun a => mem a % 256)) := by
  intro n
  induction n with
  | zero =>
    intro fuel c out hf hz _
    obtain ⟨f, rfl⟩ : ∃ f, fuel = f + 1 := ⟨fuel - 1, by omega⟩
    have hz0 : mem c = 0 := by simpa using hz
    simp [puts_loop, hz0]
  | succ n ih =>
    intro fuel c out hf hz hnz
    obtain ⟨f, rfl⟩ : ∃ f, fuel = f + 1 := ⟨fuel - 1, by omega⟩
    have h0 : mem c ≠ 0 := by simpa using hnz 0 (by omega)
    have hz1 : mem (c + 1 + n) = 0 := by rw [← hz]; congr 1; omega
    have hnz1 : ∀ i, i < n → mem (c + 1 + i) ≠ 0 := by
      intro i hi
      have h := hnz (i + 1) (by omega)
      rwa [show c + (i + 1) = c + 1 + i by omega] at h
    simp only [puts_loop, h0, ne_eq, not_false_eq_true, if_true]
    rw [ih f (c + 1) _ (by omega) hz1 hnz1, List.range'_succ]
    simp

/-- A zero cell at or above `c` gives a first one. -/
theorem first_zero_cell (mem : Nat → Nat) (c : Nat) (hz : ∃ a, c ≤ a ∧ a < 65536 ∧ mem a = 0) :
    ∃ n, c + n < 65536 ∧ mem (c + n) = 0 ∧ ∀ i, i < n → mem (c + i) ≠ 0 := by
  obtain ⟨a, h1, h2, h3⟩ := hz
  have hex : ∃ n, mem (c + n) = 0 := ⟨a - c, by rw [Nat.add_sub_cancel' h1]; exact h3⟩
  refine ⟨Nat.find hex, ?_, Nat.find_spec hex, fun i hi => Nat.find_min hex hi⟩
  have hle : Nat.find hex ≤ a - c :=
    Nat.find_min' hex (by rw [Nat.add_sub_cancel' h1]; exact h3)
  omega

/-- C10: when the fetched instruction is TRAP with vector PUTS and some memory cell at
an address from R0 up to 0xFFFF is zero, the step completes; with `n` the number of cells
from `mem[R0]` before the first zero cell, the console gains exactly the low bytes of
`mem[R0], ..., mem[R0 + n - 1]` in order, and memory, R0..R6 and the condition register
are unchanged. -/
theorem C10_puts_output (s : VM) (hop : (fetch s).1 >>> 12 = OP_TRAP)
    (hvec : (fetch s).1 &&& 0xFF = TRAP_PUTS)
    (hz : ∃ a, s.reg R_R0 ≤ a ∧ a < 65536 ∧ s.mem a = 0) :
    ∃ s1 n, step s = .ok s1 ∧
      s.reg R_R0 + n < 65536 ∧ s.mem (s.reg R_R0 + n) = 0 ∧
      (∀ i, i < n → s.mem (s.reg R_R0 + i) ≠ 0) ∧
      s1.out = s.out ++ (List.range' (s.reg R_R0) n).map (fun a => s.mem a % 256) ∧
      s1.mem = s.mem ∧ (∀ r, r ≤ 6 → s1.reg r = s.reg r) ∧
      s1.reg R_COND = s.reg R_COND := by
  have hpc : s.reg R_PC ≠ MR_KBSR :=
    fetch_pc_ne_kbsr s (by rw [hop]; decide) (by rw [hop]; decide)
  rw [step_of_ne s hpc]
  rw [fetch_fst_of_ne s hpc] at hop hvec
  obtain ⟨n, hn, hz0, hnz⟩ := first_zero_cell s.mem (s.reg R_R0) hz
  have hreg : ∀ r, r ≤ 6 →
      wr (wr s.reg R_PC ((s.reg R_PC + 1) % 65536)) R_R7
        (wr s.reg R_PC ((s.reg R_PC + 1) % 65536) R_PC) r = s.reg r := by
    intro r hr
    rw [wr_ne _ _ _ _ (by unfold R_R7; omega), wr_ne _ _ _ _ (by unfold R_PC; omega)]
  have hcond : wr (wr s.reg R_PC ((s.reg R_PC + 1) % 65536)) R_R7
        (wr s.reg R_PC ((s.reg R_PC + 1) % 65536) R_PC) R_COND = s.reg R_COND := by
    rw [wr_ne _ _ _ _ (by decide), wr_ne _ _ _ _ (by decide)]
  have hloop := puts_loop_spec s.mem n (MEMORY_MAX - s.reg R_R0) (s.reg R_R0) s.out
    (by unfold MEMORY_MAX; omega) hz0 hnz
  rw [exec_TRAP _ _ hop]
  simp only [op_TRAP, hvec, hreg 0 (by omega), hloop]
  exact ⟨_, n, rfl, hn, hz0, hnz, rfl, rfl, hreg, hcond⟩

/-- Instance of C10: the cells `0x0048, 0x0069, 0x0000` at `R0 = 0x4000` print `Hi`. -/
theorem C10_puts_output_witness :
    ∃ s1, step (mk_state [(0x3000, 0xF022), (0x4000, 0x0048), (0x4001, 0x0069), (0x4002, 0x0000)]
        [(R_R0, 0x4000), (R_PC, 0x3000), (R_COND, FL_ZRO)] [] []) = .ok s1 ∧
      s1.out = c_str "Hi" ∧
      s1.mem = cells_of [(0x3000, 0xF022), (0x4000, 0x0048), (0x4001, 0x0069), (0x4002, 0x0000)] := by
  obtain ⟨s1, n, h1, _, _, _, _, h3, _, _⟩ :=
    C10_puts_output (mk_state [(0x3000, 0xF022), (0x4000, 0x0048), (0x4001, 0x0069),
      (0x4002, 0x0000)] [(R_R0, 0x4000), (R_PC, 0x3000), (R_COND, FL_ZRO)] [] [])
      (by decide) (by decide) ⟨0x4002, by decide, by decide, by decide⟩
  have h4 : s1.out = c_str "Hi" := by
    injection h1 with h1
    subst h1
    decide
  exact ⟨s1, h1, h4, h3⟩

/-! ## C11: TRAP PUTSP -/

/-- The PUTSP loop started at `c` with a first zero cell `n` cells on, and fuel to reach
it, appends for each of the `n` cells before it the bytes of `spec_putsp_cell`. -/
theorem putsp_loop_spec (mem : Nat → Nat) :
    ∀ (n fuel c : Nat) (out : List Nat), n < fuel → mem (c + n) = 0 →
      (∀ i, i < n → mem (c + i) ≠ 0) →
      putsp_loop fuel mem c out =
        some (out ++ (List.range' c n).flatMap (fun a => spec_putsp_cell (mem a))) := by
  intro n
  induction n with
  | zero =>
    intro fuel c out hf hz _
    obtain ⟨f, rfl⟩ : ∃ f, fuel = f + 1 := ⟨fuel - 1, by omega⟩
    have hz0 : mem c = 0 := by simpa using hz
    simp [putsp_loop, hz0]
  | succ n ih =>
    intro fuel c out hf hz hnz
    obtain ⟨f, rfl⟩ : ∃ f, fuel = f + 1 := ⟨fuel - 1, by omega⟩
    have h0 : mem c ≠ 0 := by simpa using hnz 0 (by omega)
    have hz1 : mem (c + 1 + n) = 0 := by rw [← hz]; congr 1; omega
    have hnz1 : ∀ i, i < n → mem (c + 1 + i) ≠ 0 := by
      intro i hi
      have h := hnz (i + 1) (by omega)
      rwa [show c + (i + 1) = c + 1 + i by omega] at h
    have hlo : (mem c &&& 0xFF) % 256 = mem c % 256 := by
      rw [show (0xFF : Nat) = 2 ^ 8 - 1 by norm_num, Nat.and_pow_two_sub_one_eq_mod]
      norm_num
    have hhi : (mem c >>> 8) % 256 = mem c / 256 % 256 := by
      rw [Nat.shiftRight_eq_div_pow]
    simp only [putsp_loop, h0, ne_eq, not_false_eq_true, if_true, hlo, hhi]
    rw [List.range'_succ]
    split_ifs with h1
    · rw [ih f (c + 1) _ (by omega) hz1 hnz1]
      simp [spec_putsp_cell, h1]
    · rw [ih f (c + 1) _ (by omega) hz1 hnz1]
      simp [spec_putsp_cell, h1]

/-- C11: when the fetched instruction is TRAP with vector PUTSP and some memory cell at
an address from R0 up to 0xFFFF is zero, the step completes; with `n` the number of cells
from `mem[R0]` before the first cell equal to zero, the console gains, for each of these
cells in order, the low byte followed by the high byte only if the high byte is not zero.
A cell with low byte zero and high byte nonzero is not a zero cell, so it does not stop
the output: it contributes a zero byte and its high byte. -/
theorem C11_putsp_output (s : VM) (hop : (fetch s).1 >>> 12 = OP_TRAP)
    (hvec : (fetch s).1 &&& 0xFF = TRAP_PUTSP)
    (hz : ∃ a, s.reg R_R0 ≤ a ∧ a < 65536 ∧ s.mem a = 0) :
    ∃ s1 n, step s = .ok s1 ∧
      s.reg R_R0 + n < 65536 ∧ s.mem (s.reg R_R0 + n) = 0 ∧
      (∀ i, i < n → s.mem (s.reg R_R0 + i) ≠ 0) ∧
      s1.out =
        s.out ++ (List.range' (s.reg R_R0) n).flatMap (fun a => spec_putsp_cell (s.mem a)) ∧
      s1.mem = s.mem := by
  have hpc : s.reg R_PC ≠ MR_KBSR :=
    fetch_pc_ne_kbsr s (by rw [hop]; decide) (by rw [hop]; decide)
  rw [step_of_ne s hpc]
  rw [fetch_fst_of_ne s hpc] at hop hvec
  obtain ⟨n, hn, hz0, hnz⟩ := first_zero_cell s.mem (s.reg R_R0) hz
  have hreg : wr (wr s.reg R_PC ((s.reg R_PC + 1) % 65536)) R_R7
        (wr s.reg R_PC ((s.reg R_PC + 1) % 65536) R_PC) R_R0 = s.reg R_R0 := by
    rw [wr_ne _ _ _ _ (by decide), wr_ne _ _ _ _ (by decide)]
  have hloop := putsp_loop_spec s.mem n (MEMORY_MAX - s.reg R_R0) (s.reg R_R0) s.out
    (by unfold MEMORY_MAX; omega) hz0 hnz
  rw [exec_TRAP _ _ hop]
  simp only [op_TRAP, hvec, hreg, hloop]
  exact ⟨_, n, rfl, hn, hz0, hnz, rfl, rfl⟩

/-- Instance of C11: the cells `0x4100, 0x6942, 0x0043, 0x0000` at `R0 = 0x4000` print
the bytes `0x00 0x41 0x42 0x69 0x43`; the cell `0x4100` gives a zero byte and `0x41`. -/
theorem C11_putsp_output_witness :
    spec_putsp_cell 0x4100 = [0x00, 0x41] ∧
    ∃ s1, step (mk_state [(0x3000, 0xF024), (0x4000, 0x4100), (0x4001, 0x6942),
        (0x4002, 0x0043), (0x4003, 0x0000)]
        [(R_R0, 0x4000), (R_PC, 0x3000), (R_COND, FL_ZRO)] [] []) = .ok s1 ∧
      s1.out = [0x00, 0x41, 0x42, 0x69, 0x43] := by
  refine ⟨by decide, ?_⟩
  obtain ⟨s1, n, h1, _, _, _, _, _⟩ :=
    C11_putsp_output (mk_state [(0x3000, 0xF024), (0x4000, 0x4100), (0x4001, 0x6942),
      (0x4002, 0x0043), (0x4003, 0x0000)]
      [(R_R0, 0x4000), (R_PC, 0x3000), (R_COND, FL_ZRO)] [] [])
      (by decide) (by decide) ⟨0x4003, by decide, by decide, by decide⟩
  have h4 : s1.out = [0x00, 0x41, 0x42, 0x69, 0x43] := by
    injection h1 with h1
    subst h1
    decide
  exact ⟨s1, h1, h4⟩

/-! ## C12: the memory-mapped keyboard -/

theorem check_key_stdin (s : VM) : (check_key s).2.stdin = s.stdin := by
  unfold check_key; split <;> rfl

theorem getchar_of_cons (t : VM) (c : Nat) (rest : List Nat) (h : t.stdin = c :: rest) :
    (getchar t).1 = (c : Int) ∧ (getchar t).2.stdin = rest := by
  unfold getchar
  rw [h]
  exact ⟨rfl, rfl⟩

/-- C12: a read of the keyboard status address 0xFE00 with no key pending (`check_key`
answers no) returns 0, leaves `mem[0xFE00] = 0`, every other cell unchanged and the input
untouched; with a key pending whose character is the byte `c` (`check_key` answers yes
and `getchar` delivers `c`) it returns 0x8000, whose bit 15 is set, leaves
`mem[0xFE00] = 0x8000` and `mem[0xFE02] = c`, changes no other cell and consumes that one
character.  A read of any other address (0xFE02 included) returns the stored cell and
leaves the whole state, memory and input included, as it was. -/
theorem C12_mem_read_keyboard (s : VM) :
    ((check_key s).1 = false →
      (mem_read s MR_KBSR).1 = 0 ∧ (mem_read s MR_KBSR).2.mem MR_KBSR = 0 ∧
      (∀ a, a ≠ MR_KBSR → (mem_read s MR_KBSR).2.mem a = s.mem a) ∧
      (mem_read s MR_KBSR).2.stdin = s.stdin) ∧
    (∀ c rest, (check_key s).1 = true → s.stdin = c :: rest → c < 256 →
      (mem_read s MR_KBSR).1 = 0x8000 ∧ Nat.testBit (mem_read s MR_KBSR).1 15 = true ∧
      (mem_read s MR_KBSR).2.mem MR_KBSR = 0x8000 ∧
      (mem_read s MR_KBSR).2.mem MR_KBDR = c ∧
      (∀ a, a ≠ MR_KBSR → a ≠ MR_KBDR → (mem_read s MR_KBSR).2.mem a = s.mem a) ∧
      (mem_read s MR_KBSR).2.stdin = rest) ∧
    (∀ addr, addr ≠ MR_KBSR → mem_read s addr = (s.mem addr, s)) := by
  refine ⟨?_, ?_, fun addr h => mem_read_of_ne s addr h⟩
  · intro hk
    have hk1 : ¬ (check_key s).1 = true := by simp [hk]
    simp only [mem_read, if_true, if_neg hk1, wr_same, check_key_mem, check_key_stdin]
    refine ⟨trivial, trivial, fun a ha => wr_ne _ _ _ _ ha, trivial⟩
  · intro c rest hk hin hc
    have hg := getchar_of_cons
      { (check_key s).2 with mem := wr (check_key s).2.mem MR_KBSR (1 <<< 15) } c rest
      ((check_key_stdin s).trans hin)
    have hc16 : to_u16 (c : Int) = c := by
      unfold to_u16
      omega
    simp only [mem_read, if_true, if_pos hk, hg.1, hg.2, hc16, wr_same, getchar_mem]
    refine ⟨?_, ?_, ?_, trivial, ?_, trivial⟩
    · rw [wr_ne _ _ _ _ (by decide), wr_same]; decide
    · rw [wr_ne _ _ _ _ (by decide), wr_same]; decide
    · rw [wr_ne _ _ _ _ (by decide), wr_same]; decide
    · intro a h1 h2
      rw [wr_ne _ _ _ _ h2, wr_ne _ _ _ _ h1, check_key_mem]

/-- Instance of C12: with the key `A` (0x41) pending, a read of 0xFE00 returns 0x8000 and
puts 0x41 at 0xFE02; the cell 0x3000 keeps its value. -/
theorem C12_mem_read_keyboard_witness :
    (mem_read (mk_state [(0x3000, 0x1234)] [] [0x41] [true]) MR_KBSR).1 = 0x8000 ∧
      (mem_read (mk_state [(0x3000, 0x1234)] [] [0x41] [true]) MR_KBSR).2.mem MR_KBDR = 0x41 ∧
      (mem_read (mk_state [(0x3000, 0x1234)] [] [0x41] [true]) MR_KBSR).2.mem 0x3000 = 0x1234 ∧
      (mem_read (mk_state [(0x3000, 0x1234)] [] [0x41] [true]) MR_KBSR).2.stdin = [] := by
  obtain ⟨h1, _, _, h2, h3, h4⟩ :=
    (C12_mem_read_keyboard (mk_state [(0x3000, 0x1234)] [] [0x41] [true])).2.1 0x41 []
      (by decide) rfl (by decide)
  exact ⟨h1, h2, (h3 0x3000 (by decide) (by decide)).trans (by decide), h4⟩

/-! ## C13: branches -/

theorem exec_BR (instr : Nat) (s : VM) (h : instr >>> 12 = OP_BR) :
    exec instr s = op_BR instr s := by
  simp only [exec, h]

theorem fetch_reg_pc (s : VM) : (fetch s).2.reg R_PC = (s.reg R_PC + 1) % 65536 := by
  rw [fetch_reg, wr_same]

theorem fetch_reg_other (s : VM) (r : Nat) (h : r ≠ R_PC) : (fetch s).2.reg r = s.reg r := by
  rw [fetch_reg, wr_ne _ _ _ _ h]

/-- What a BR step does to the program counter, in terms of the state before the
fetch. -/
theorem step_BR (s : VM) (hop : (fetch s).1 >>> 12 = OP_BR) :
    ∃ s1, step s = .ok s1 ∧
      s1.reg R_PC =
        if (((fetch s).1 >>> 9) &&& 0x7) &&& s.reg R_COND ≠ 0 then
          (s.reg R_PC + 1 + extend ((fetch s).1 &&& 0x1FF) 9) % 65536
        else
          (s.reg R_PC + 1) % 65536 := by
  unfold step
  rw [exec_BR _ _ hop]
  simp only [op_BR, fetch_reg_pc, fetch_reg_other s R_COND (by decide)]
  split_ifs with h
  · refine ⟨_, rfl, ?_⟩
    simp only [wr_same]
    omega
  · exact ⟨_, rfl, fetch_reg_pc s⟩

/-- C13: for every state whose fetched instruction, at address `a` (the program counter
before the fetch), is a BR with condition field `cond` (bits 11..9) and offset field
`pcoffset9` (bits 8..0), the step completes with
PC = `(a + 1 + extend pcoffset9 9) % 2^16` when `cond AND flags` is nonzero and
PC = `(a + 1) % 2^16` otherwise: the offset is added to the address of the next
instruction and wraps modulo 2^16. -/
theorem C13_branch_semantics (s : VM) (hop : (fetch s).1 >>> 12 = OP_BR) :
    ∃ s1, step s = .ok s1 ∧
      s1.reg R_PC =
        if (((fetch s).1 >>> 9) &&& 0x7) &&& s.reg R_COND ≠ 0 then
          (s.reg R_PC + 1 + extend ((fetch s).1 &&& 0x1FF) 9) % 65536
        else
          (s.reg R_PC + 1) % 65536 := by
  have hcond : (fetch s).2.reg R_COND = s.reg R_COND := fetch_reg_other s R_COND (by decide)
  have hpc : (fetch s).2.reg R_PC = (s.reg R_PC + 1) % 65536 := fetch_reg_pc s
  unfold step
  rw [exec_BR _ _ hop]
  simp only [op_BR, hpc, hcond]
  split_ifs with h
  · refine ⟨_, rfl, ?_⟩
    simp only [wr_same]
    omega
  · exact ⟨_, rfl, hpc⟩

/-- Instance of C13: `BRz #-2` at 0x3000 with the ZERO flag set goes to 0x2FFF, two
cells below the next instruction at 0x3001. -/
theorem C13_branch_semantics_witness :
    ∃ s1, step (mk_state [(0x3000, 0x05FE)] [(R_PC, 0x3000), (R_COND, FL_ZRO)] [] []) = .ok s1 ∧
      s1.reg R_PC = 0x2FFF := by
  obtain ⟨s1, h1, h2⟩ :=
    C13_branch_semantics (mk_state [(0x3000, 0x05FE)] [(R_PC, 0x3000), (R_COND, FL_ZRO)] [] [])
      (by decide)
  exact ⟨s1, h1, h2.trans (by decide)⟩

/-! ## C14: fatal opcodes -/

theorem op_TRAP_ne_abort (instr : Nat) (s : VM) : op_TRAP instr s ≠ .abort := by
  unfold op_TRAP
  simp only
  split
  · simp
  · simp
  · split <;> simp
  · simp
  · split <;> simp
  · simp
  · simp

/-- The switch aborts exactly in the cases `OP_RTI`, `OP_RES` and `default`. -/
theorem exec_abort_iff (instr : Nat) (s : VM) :
    exec instr s = .abort ↔ (instr >>> 12 = OP_RTI ∨ instr >>> 12 = OP_RES ∨ 15 < instr >>> 12) := by
  unfold exec
  split
  all_goals rename_i h
  all_goals try simp only [h]
  · simp only [op_BR]; split_ifs <;> simp
  · simp only [op_ADD]; split_ifs <;> simp
  · simp [op_LD]
  · simp [op_ST]
  · simp only [op_JSR]; split_ifs <;> simp
  · simp only [op_AND]; split_ifs <;> simp
  · simp [op_LDR]
  · simp [op_STR]
  · simp
  · simp [op_NOT]
  · simp [op_LDI]
  · simp [op_STI]
  · simp [op_JMP]
  · simp
  · simp [op_LEA]
  · simp [op_TRAP_ne_abort]
  · simp only [true_iff]
    right; right
    by_contra hc
    have hle : instr >>> 12 ≤ 15 := by omega
    generalize instr >>> 12 = v at *
    interval_cases v <;> simp_all

theorem fetch_val_lt (s : VM) (h : ∀ a, s.mem a < 65536) : (fetch s).1 < 65536 := by
  unfold fetch
  exact mem_read_val_lt _ _ h

/-- C14: in every well-formed state the fetched instruction word is a 16-bit value, its
decoded opcode (the top four bits) is in 0..15, so the `default` case of the switch is
never taken, and the step aborts if and only if that opcode is 8 (RTI) or 13 (RES); for
every other word the step runs the handler of its opcode and does not abort. -/
theorem C14_fatal_opcodes (s : VM) (hwf : WF s) :
    (fetch s).1 < 65536 ∧ (fetch s).1 >>> 12 ≤ 15 ∧
      (step s = .abort ↔ ((fetch s).1 >>> 12 = OP_RTI ∨ (fetch s).1 >>> 12 = OP_RES)) := by
  have hlt : (fetch s).1 < 65536 := fetch_val_lt s hwf.1
  have hle : (fetch s).1 >>> 12 ≤ 15 := by
    rw [Nat.shiftRight_eq_div_pow]
    omega
  refine ⟨hlt, hle, ?_⟩
  unfold step
  rw [exec_abort_iff]
  constructor
  · rintro (h | h | h)
    · exact Or.inl h
    · exact Or.inr h
    · omega
  · rintro (h | h)
    · exact Or.inl h
    · exact Or.inr (Or.inl h)

/-- Instance of C14: the word 0x8000 (RTI) at 0x3000 aborts the step, and the word
0xD000 (RES) does too. -/
theorem C14_fatal_opcodes_witness :
    step (mk_state [(0x3000, 0x8000)] [(R_PC, 0x3000), (R_COND, FL_ZRO)] [] []) = .abort ∧
      exec 0xD000 (mk_state [] [(R_PC, 0x3001), (R_COND, FL_ZRO)] [] []) = .abort :=
  ⟨(C14_fatal_opcodes (mk_state [(0x3000, 0x8000)] [(R_PC, 0x3000), (R_COND, FL_ZRO)] [] [])
      (mk_state_wf _ _ _ _ (by decide) (by decide) (by decide))).2.2.2 (Or.inl (by decide)),
    (exec_abort_iff _ _).2 (Or.inr (Or.inl (by decide)))⟩

/-! ## C15: image placement -/

/-- The cell `swap_16` makes of a big-endian word read on a little-endian host. -/
theorem swap_16_of_bytes (w : Nat) (hw : w < 65536) :
    swap_16 (w / 256 + 256 * (w % 256)) = w := by
  unfold swap_16
  have h1 : (w / 256 + 256 * (w % 256)) <<< 8 = 2 ^ 8 * (w / 256 + 256 * (w % 256)) := by
    rw [Nat.shiftLeft_eq, Nat.mul_comm]
  have h2 : (w / 256 + 256 * (w % 256)) >>> 8 = w % 256 := by
    rw [Nat.shiftRight_eq_div_pow]
    omega
  have h3 : w % 256 < 2 ^ 8 := by omega
  rw [h1, h2, ← Nat.mul_add_lt_is_or h3]
  omega

theorem swap_loop_spec : ∀ (n : Nat) (mem : Nat → Nat) (place a : Nat),
    swap_loop n mem place a =
      if place ≤ a ∧ a < place + n then swap_16 (mem a) else mem a := by
  intro n
  induction n with
  | zero =>
    intro mem place a
    rw [if_neg (by omega)]
    rfl
  | succ n ih =>
    intro mem place a
    simp only [swap_loop]
    rw [ih]
    by_cases h1 : a = place
    · subst h1
      simp [wr]
    · rw [wr_ne _ _ _ _ h1]
      by_cases h2 : place + 1 ≤ a ∧ a < place + 1 + n
      · rw [if_pos h2, if_pos (by omega)]
      · rw [if_neg h2, if_neg (by omega)]

theorem fread_words_spec : ∀ (ws : List Nat) (count : Nat) (mem : Nat → Nat) (place : Nat),
    (fread_words count (ws.flatMap (fun w => [w / 256, w % 256])) mem place).2 =
        min count ws.length ∧
      ∀ a, (fread_words count (ws.flatMap (fun w => [w / 256, w % 256])) mem place).1 a =
        if place ≤ a ∧ a < place + min count ws.length then
          ws.getD (a - place) 0 / 256 + 256 * (ws.getD (a - place) 0 % 256)
        else mem a := by
  intro ws
  induction ws with
  | nil =>
    intro count mem place
    have h0 : fread_words count ([] : List Nat) mem place = (mem, 0) := by
      cases count <;> rfl
    rw [List.flatMap_nil, h0]
    refine ⟨by simp, fun a => ?_⟩
    rw [if_neg (by simp)]
  | cons w ws ih =>
    intro count mem place
    have hb : (w :: ws).flatMap (fun w => [w / 256, w % 256]) =
        w / 256 :: w % 256 :: ws.flatMap (fun w => [w / 256, w % 256]) := by
      rw [List.flatMap_cons]
      rfl
    rw [hb]
    cases count with
    | zero =>
      have h0 : fread_words 0 (w / 256 :: w % 256 :: ws.flatMap (fun w => [w / 256, w % 256]))
          mem place = (mem, 0) := rfl
      rw [h0]
      refine ⟨by simp, fun a => ?_⟩
      rw [if_neg (by simp)]
    | succ c =>
      simp only [fread_words, List.length_cons]
      obtain ⟨h1, h2⟩ := ih c (wr mem place (w / 256 + 256 * (w % 256))) (place + 1)
      refine ⟨by rw [h1]; omega, ?_⟩
      intro a
      rw [h2]
      by_cases ha : a = place
      · subst ha
        rw [if_neg (by omega), if_pos (by omega)]
        simp
      · rw [wr_ne _ _ _ _ ha]
        by_cases hb : place + 1 ≤ a ∧ a < place + 1 + min c ws.length
        · rw [if_pos hb, if_pos (by omega)]
          obtain ⟨k, hk⟩ : ∃ k, a - place = k + 1 := ⟨a - place - 1, by omega⟩
          rw [hk, show a - (place + 1) = k by omega, List.getD_cons_succ]
        · rw [if_neg hb, if_neg (by omega)]

theorem spec_image_file_length_even (ws : List Nat) :
    (ws.flatMap (fun w => [w / 256, w % 256])).length % 2 = 0 := by
  induction ws with
  | nil => rfl
  | cons w ws ih =>
    rw [List.flatMap_cons, List.length_append]
    simp only [List.length_cons, List.length_nil]
    omega

/-- Away from origin 0 the loader places the words as the specification says: for an
origin `o` in 1..0xFFFF and 16-bit words `ws`, loading leaves `mem[o + i] = ws[i]` for
every `i < min (length ws) (65536 - o)` and every other cell unchanged. -/
theorem read_image_file_of_origin_pos (mem : Nat → Nat) (o : Nat) (ws : List Nat)
    (ho : 0 < o) (ho1 : o < 65536) (hw : ∀ w ∈ ws, w < 65536) :
    ∃ m, read_image_file mem (spec_image_file o ws) = some m ∧
      ∀ a, m a =
        if o ≤ a ∧ a < o + min ws.length (65536 - o) then ws.getD (a - o) 0 else mem a := by
  have horg : swap_16 (o / 256 + 256 * (o % 256)) = o := swap_16_of_bytes o ho1
  have hmax : (MEMORY_MAX - o) % 65536 = 65536 - o := by unfold MEMORY_MAX; omega
  obtain ⟨h1, h2⟩ := fread_words_spec ws (65536 - o) mem o
  have hload : read_image_file mem (spec_image_file o ws) =
      some (swap_loop (fread_words (65536 - o) (ws.flatMap (fun w => [w / 256, w % 256])) mem o).2
        (fread_words (65536 - o) (ws.flatMap (fun w => [w / 256, w % 256])) mem o).1 o) := by
    simp only [spec_image_file, List.cons_append, List.nil_append, read_image_file,
      spec_image_file_length_even, if_true, horg, hmax]
  refine ⟨_, hload, ?_⟩
  intro a
  rw [swap_loop_spec, h1, h2, Nat.min_comm (65536 - o) ws.length]
  by_cases ha : o ≤ a ∧ a < o + min ws.length (65536 - o)
  · simp only [if_pos ha]
    have hlt : a - o < ws.length := by omega
    have hmem : ws.getD (a - o) 0 ∈ ws := by
      rw [List.getD_eq_getElem _ _ hlt]
      exact List.getElem_mem hlt
    exact swap_16_of_bytes _ (hw _ hmem)
  · simp only [if_neg ha]

/-- With origin 0 the loader reads no word at all: `max_read_size`, a `uint16_t`, is
`65536 - 0` reduced to 16 bits, which is 0. -/
theorem read_image_file_of_origin_zero (mem : Nat → Nat) (ws : List Nat) :
    ∃ m, read_image_file mem (spec_image_file 0 ws) = some m ∧ ∀ a, m a = mem a := by
  have horg : swap_16 (0 / 256 + 256 * (0 % 256)) = 0 := by decide
  have hmax : (MEMORY_MAX - 0) % 65536 = 0 := by decide
  have h0 : ∀ l : List Nat, fread_words 0 l mem 0 = (mem, 0) := by
    intro l
    cases l <;> rfl
  have hload : read_image_file mem (spec_image_file 0 ws) = some (swap_loop 0 mem 0) := by
    simp only [spec_image_file, List.cons_append, List.nil_append, read_image_file,
      spec_image_file_length_even, if_true, horg, hmax, h0]
  exact ⟨_, hload, fun _ => rfl⟩

/-- C15 (the code at the failing input): the image with origin word 0x0000 and the single
word 0x1234, bytes `00 00 12 34`, loaded into zero memory leaves `mem[0] = 0`, not
0x1234, and indeed every cell zero: nothing is placed. -/
theorem C15_origin_zero_image_not_placed :
    spec_image_file 0 [0x1234] = [0x00, 0x00, 0x12, 0x34] ∧
      ∃ m, read_image_file (fun _ => 0) [0x00, 0x00, 0x12, 0x34] = some m ∧
        m 0 = 0 ∧ m 0 ≠ 0x1234 ∧ ∀ a, m a = 0 := by
  refine ⟨by decide, ?_⟩
  obtain ⟨m, h1, h2⟩ := read_image_file_of_origin_zero (fun _ => 0) [0x1234]
  have h3 : spec_image_file 0 [0x1234] = [0x00, 0x00, 0x12, 0x34] := by decide
  rw [h3] at h1
  exact ⟨m, h1, h2 0, by rw [h2 0]; decide, h2⟩

/-! ## C16: TRAP IN -/

/-- What `char c = getchar(); putc(c, stdout); reg[R_R0] = (uint16_t) c;` makes of an input
byte `b`: the byte is echoed as it is, and the value stored is `b` when plain `char` is
unsigned or `b < 128`, and `0xFF00 + b` (the sign extension) otherwise. -/
theorem char_round_trip (char_signed : Bool) (b : Nat) (hb : b < 256) :
    to_byte (to_char char_signed (b : Int)) = b ∧
      to_u16 (to_char char_signed (b : Int)) =
        if char_signed = true ∧ 128 ≤ b then 0xFF00 + b else b := by
  unfold to_byte to_u16 to_char
  cases char_signed
  · simp only [Bool.false_eq_true, if_false, false_and]
    omega
  · simp only [if_true, true_and]
    split_ifs <;> omega

/-- The TRAP IN handler on an input byte `b`. -/
theorem op_TRAP_IN (instr : Nat) (s : VM) (hvec : instr &&& 0xFF = TRAP_IN)
    (b : Nat) (rest : List Nat) (hin : s.stdin = b :: rest) (hb : b < 256) :
    ∃ s1, op_TRAP instr s = .ok s1 ∧
      s1.out = s.out ++ c_str "enter a char: " ++ [b] ∧
      s1.reg R_R0 = (if s.char_signed = true ∧ 128 ≤ b then 0xFF00 + b else b) ∧
      s1.reg R_COND =
        (if b = 0 then FL_ZRO else if s.char_signed = true ∧ 128 ≤ b then FL_NEG else FL_POS) ∧
      s1.stdin = rest := by
  obtain ⟨h1, h2⟩ := char_round_trip s.char_signed b hb
  have hg := getchar_of_cons
    { s with reg := wr s.reg R_R7 (s.reg R_PC), out := s.out ++ c_str "enter a char: " } b rest hin
  simp only [op_TRAP, hvec, putc, hg.1, hg.2, h1, h2, getchar_out, getchar_reg]
  refine ⟨_, rfl, rfl, ?_, ?_, rfl⟩ <;> dsimp only
  · rw [update_flags_other _ _ _ (by decide), wr_same]
  · rw [update_flags_cond, wr_same, Nat.shiftRight_eq_div_pow]
    split_ifs <;> first | rfl | omega

/-- C16 (the code at the failing input): on a host where plain `char` is signed, TRAP IN
at 0x3000 with the input byte 0x80 writes the prompt and the byte 0x80, then leaves
`R0 = 0xFF80` with the NEGATIVE flag, whereas TRAP GETC on the same byte leaves
`R0 = 0x0080` with the POSITIVE flag. -/
theorem C16_in_sign_extends_input :
    (∃ s1, step (mk_state [(0x3000, 0xF023)] [(R_PC, 0x3000), (R_COND, FL_ZRO)] [0x80] []) =
        .ok s1 ∧
      s1.out = c_str "enter a char: " ++ [0x80] ∧
      s1.reg R_R0 = 0xFF80 ∧ s1.reg R_COND = FL_NEG) ∧
    (∃ s2, step (mk_state [(0x3000, 0xF020)] [(R_PC, 0x3000), (R_COND, FL_ZRO)] [0x80] []) =
        .ok s2 ∧
      s2.reg R_R0 = 0x0080 ∧ s2.reg R_COND = FL_POS) :=
  ⟨⟨_, rfl, by decide, by decide, by decide⟩, ⟨_, rfl, by decide, by decide⟩⟩

/-! ## C17: JSR writes the link before it reads the base register -/

/-- C17: for every state whose fetched instruction is a JSR, with `P` the program counter
after the fetch increment, the step completes with `R7 = P`; in long form (bit 11 set) the
new PC is `(P + extend pcoffset11 11) % 2^16`; in register form the new PC is the value
`baseR` held before the instruction when `baseR` is not R7, and is `P` when `baseR` is R7,
because the link is written before `baseR` is read.  Memory, R0..R6 and the condition
register are unchanged. -/
theorem C17_jsr_link_then_jump (s : VM) (hop : (fetch s).1 >>> 12 = OP_JSR) :
    ∃ s1, step s = .ok s1 ∧
      s1.reg R_R7 = (s.reg R_PC + 1) % 65536 ∧
      s1.reg R_PC =
        (if ((fetch s).1 >>> 11) &&& 1 ≠ 0 then
          ((s.reg R_PC + 1) % 65536 + extend ((fetch s).1 &&& 0x7FF) 11) % 65536
        else if ((fetch s).1 >>> 6) &&& 0x7 = R_R7 then (s.reg R_PC + 1) % 65536
        else s.reg (((fetch s).1 >>> 6) &&& 0x7)) ∧
      s1.mem = s.mem ∧ (∀ r, r ≤ 6 → s1.reg r = s.reg r) ∧
      s1.reg R_COND = s.reg R_COND := by
  have hpc : s.reg R_PC ≠ MR_KBSR :=
    fetch_pc_ne_kbsr s (by rw [hop]; decide) (by rw [hop]; decide)
  rw [step_of_ne s hpc]
  rw [fetch_fst_of_ne s hpc] at hop ⊢
  generalize s.mem (s.reg R_PC) = instr at *
  have hbr : (instr >>> 6) &&& 0x7 ≤ 7 := field_le_seven _
  rw [exec_JSR _ _ hop]
  simp only [op_JSR, wr_same]
  by_cases hl : (instr >>> 11) &&& 1 ≠ 0
  · rw [if_pos hl, if_pos hl]
    refine ⟨_, rfl, ?_, ?_, rfl, ?_, ?_⟩ <;> dsimp only
    · rw [wr_ne _ _ _ _ (by decide), wr_same]
    · rw [wr_same, wr_ne _ _ _ _ (by decide), wr_same]
    · intro r hr
      rw [wr_ne _ _ _ _ (by unfold R_PC; omega), wr_ne _ _ _ _ (by unfold R_R7; omega),
        wr_ne _ _ _ _ (by unfold R_PC; omega)]
    · rw [wr_ne _ _ _ _ (by decide), wr_ne _ _ _ _ (by decide), wr_ne _ _ _ _ (by decide)]
  · rw [if_neg hl, if_neg hl]
    refine ⟨_, rfl, ?_, ?_, rfl, ?_, ?_⟩ <;> dsimp only
    · rw [wr_ne _ _ _ _ (by decide), wr_same]
    · rw [wr_same]
      by_cases h7 : (instr >>> 6) &&& 0x7 = R_R7
      · rw [if_pos h7, h7, wr_same]
      · rw [if_neg h7, wr_ne _ _ _ _ h7, wr_ne _ _ _ _ (by unfold R_PC; omega)]
    · intro r hr
      rw [wr_ne _ _ _ _ (by unfold R_PC; omega), wr_ne _ _ _ _ (by unfold R_R7; omega),
        wr_ne _ _ _ _ (by unfold R_PC; omega)]
    · rw [wr_ne _ _ _ _ (by decide), wr_ne _ _ _ _ (by decide), wr_ne _ _ _ _ (by decide)]

/-- Instance of C17: `JSRR R7` at 0x3000 with `R7 = 0x5000` leaves `R7 = 0x3001` and
`PC = 0x3001`, not 0x5000. -/
theorem C17_jsr_link_then_jump_witness :
    ∃ s1, step (mk_state [(0x3000, 0x41C0)]
        [(R_R7, 0x5000), (R_PC, 0x3000), (R_COND, FL_ZRO)] [] []) = .ok s1 ∧
      s1.reg R_R7 = 0x3001 ∧ s1.reg R_PC = 0x3001 := by
  obtain ⟨s1, h1, h2, h3, _⟩ :=
    C17_jsr_link_then_jump (mk_state [(0x3000, 0x41C0)]
      [(R_R7, 0x5000), (R_PC, 0x3000), (R_COND, FL_ZRO)] [] []) (by decide)
  exact ⟨s1, h1, h2.trans (by decide), h3.trans (by decide)⟩

/-! ## C18: instructions that do not set the flags -/

/-- The handlers of BR, ST, STR, STI, JSR, JMP and of the traps OUT, PUTS, PUTSP and HALT
leave the condition register as it was. -/
theorem exec_cond_frame (instr : Nat) (t s1 : VM)
    (hop : instr >>> 12 = OP_BR ∨ instr >>> 12 = OP_ST ∨ instr >>> 12 = OP_STR ∨
      instr >>> 12 = OP_STI ∨ instr >>> 12 = OP_JSR ∨ instr >>> 12 = OP_JMP ∨
      (instr >>> 12 = OP_TRAP ∧ (instr &&& 0xFF = TRAP_OUT ∨ instr &&& 0xFF = TRAP_PUTS ∨
        instr &&& 0xFF = TRAP_PUTSP ∨ instr &&& 0xFF = TRAP_HALT)))
    (h : exec instr t = .ok s1) : s1.reg R_COND = t.reg R_COND := by
  rcases hop with h0 | h0 | h0 | h0 | h0 | h0 | ⟨h0, hv⟩ <;> simp only [exec, h0] at h
  · simp only [op_BR] at h
    split_ifs at h <;> injection h with h <;> subst h <;> simp [wr]
  · simp only [op_ST, mem_write] at h
    injection h with h; subst h; rfl
  · simp only [op_STR, mem_write] at h
    injection h with h; subst h; rfl
  · simp only [op_STI, mem_write] at h
    injection h with h; subst h
    simp [mem_read_reg]
  · simp only [op_JSR] at h
    split_ifs at h <;> injection h with h <;> subst h <;> simp [wr]
  · simp only [op_JMP] at h
    injection h with h; subst h; simp [wr]
  · rcases hv with hv | hv | hv | hv <;> simp only [op_TRAP, hv] at h
    · injection h with h; subst h; simp [putc, wr]
    · split at h
      · injection h with h; subst h; simp [wr]
      · cases h
    · split at h
      · injection h with h; subst h; simp [wr]
      · cases h
    · injection h with h; subst h; simp [wr]

/-- The same handlers run to completion, PUTS and PUTSP provided a zero cell ends the
string. -/
theorem exec_completes (instr : Nat) (t : VM)
    (hop : instr >>> 12 = OP_BR ∨ instr >>> 12 = OP_ST ∨ instr >>> 12 = OP_STR ∨
      instr >>> 12 = OP_STI ∨ instr >>> 12 = OP_JSR ∨ instr >>> 12 = OP_JMP ∨
      (instr >>> 12 = OP_TRAP ∧ (instr &&& 0xFF = TRAP_OUT ∨ instr &&& 0xFF = TRAP_PUTS ∨
        instr &&& 0xFF = TRAP_PUTSP ∨ instr &&& 0xFF = TRAP_HALT)))
    (hz : instr >>> 12 = OP_TRAP → (instr &&& 0xFF = TRAP_PUTS ∨ instr &&& 0xFF = TRAP_PUTSP) →
      ∃ a, t.reg R_R0 ≤ a ∧ a < 65536 ∧ t.mem a = 0) :
    ∃ s1, exec instr t = .ok s1 := by
  rcases hop with h0 | h0 | h0 | h0 | h0 | h0 | ⟨h0, hv⟩
  · simp only [exec, h0, op_BR]
    split_ifs <;> exact ⟨_, rfl⟩
  · simp only [exec, h0, op_ST]
    exact ⟨_, rfl⟩
  · simp only [exec, h0, op_STR]
    exact ⟨_, rfl⟩
  · simp only [exec, h0, op_STI]
    exact ⟨_, rfl⟩
  · simp only [exec, h0, op_JSR]
    split_ifs <;> exact ⟨_, rfl⟩
  · simp only [exec, h0, op_JMP]
    exact ⟨_, rfl⟩
  · have hr0 : wr t.reg R_R7 (t.reg R_PC) R_R0 = t.reg R_R0 := wr_ne _ _ _ _ (by decide)
    rcases hv with hv | hv | hv | hv
    · simp only [exec, h0, op_TRAP, hv]
      exact ⟨_, rfl⟩
    · obtain ⟨n, hn, hz0, hnz⟩ := first_zero_cell t.mem (t.reg R_R0) (hz h0 (Or.inl hv))
      have hloop := puts_loop_spec t.mem n (MEMORY_MAX - t.reg R_R0) (t.reg R_R0) t.out
        (by unfold MEMORY_MAX; omega) hz0 hnz
      simp only [exec, h0, op_TRAP, hv, hr0, hloop]
      exact ⟨_, rfl⟩
    · obtain ⟨n, hn, hz0, hnz⟩ := first_zero_cell t.mem (t.reg R_R0) (hz h0 (Or.inr hv))
      have hloop := putsp_loop_spec t.mem n (MEMORY_MAX - t.reg R_R0) (t.reg R_R0) t.out
        (by unfold MEMORY_MAX; omega) hz0 hnz
      simp only [exec, h0, op_TRAP, hv, hr0, hloop]
      exact ⟨_, rfl⟩
    · simp only [exec, h0, op_TRAP, hv]
      exact ⟨_, rfl⟩

/-- A fetched TRAP word leaves memory as it was. -/
theorem fetch_mem_of_trap (s : VM) (h : (fetch s).1 >>> 12 = OP_TRAP) :
    (fetch s).2.mem = s.mem := by
  have hpc : s.reg R_PC ≠ MR_KBSR :=
    fetch_pc_ne_kbsr s (by rw [h]; decide) (by rw [h]; decide)
  rw [fetch_of_ne s hpc]

/-- C18: when the fetched instruction is BR, ST, STR, STI, JSR or JMP, or a TRAP with
vector OUT, PUTS, PUTSP or HALT (for PUTS and PUTSP with a zero cell at an address from R0
up to 0xFFFF), the step completes and the condition register afterwards equals its value
before the instruction.  No condition on the addresses read is needed. -/
theorem C18_no_flag_update (s : VM)
    (hop : (fetch s).1 >>> 12 = OP_BR ∨ (fetch s).1 >>> 12 = OP_ST ∨
      (fetch s).1 >>> 12 = OP_STR ∨ (fetch s).1 >>> 12 = OP_STI ∨
      (fetch s).1 >>> 12 = OP_JSR ∨ (fetch s).1 >>> 12 = OP_JMP ∨
      ((fetch s).1 >>> 12 = OP_TRAP ∧
        ((fetch s).1 &&& 0xFF = TRAP_OUT ∨ (fetch s).1 &&& 0xFF = TRAP_PUTS ∨
          (fetch s).1 &&& 0xFF = TRAP_PUTSP ∨ (fetch s).1 &&& 0xFF = TRAP_HALT)))
    (hz : (fetch s).1 >>> 12 = OP_TRAP →
      ((fetch s).1 &&& 0xFF = TRAP_PUTS ∨ (fetch s).1 &&& 0xFF = TRAP_PUTSP) →
      ∃ a, s.reg R_R0 ≤ a ∧ a < 65536 ∧ s.mem a = 0) :
    ∃ s1, step s = .ok s1 ∧ s1.reg R_COND = s.reg R_COND := by
  have hz1 : (fetch s).1 >>> 12 = OP_TRAP →
      ((fetch s).1 &&& 0xFF = TRAP_PUTS ∨ (fetch s).1 &&& 0xFF = TRAP_PUTSP) →
      ∃ a, (fetch s).2.reg R_R0 ≤ a ∧ a < 65536 ∧ (fetch s).2.mem a = 0 := by
    intro h1 h2
    rw [fetch_mem_of_trap s h1, fetch_reg_other s R_R0 (by decide)]
    exact hz h1 h2
  obtain ⟨s1, h1⟩ := exec_completes (fetch s).1 (fetch s).2 hop hz1
  refine ⟨s1, h1, ?_⟩
  rw [exec_cond_frame (fetch s).1 (fetch s).2 s1 hop h1]
  exact fetch_reg_other s R_COND (by decide)

/-- Instance of C18: `ST R1, #1` at 0x3000 with the NEGATIVE flag set keeps NEGATIVE. -/
theorem C18_no_flag_update_witness :
    ∃ s1, step (mk_state [(0x3000, 0x3201)]
        [(R_R1, 0), (R_PC, 0x3000), (R_COND, FL_NEG)] [] []) = .ok s1 ∧
      s1.mem 0x3002 = 0 ∧ s1.reg R_COND = FL_NEG := by
  obtain ⟨s1, h1, h2⟩ :=
    C18_no_flag_update (mk_state [(0x3000, 0x3201)]
      [(R_R1, 0), (R_PC, 0x3000), (R_COND, FL_NEG)] [] [])
      (Or.inr (Or.inl (by decide))) (fun h => absurd h (by decide))
  have h3 : s1.mem 0x3002 = 0 := by
    injection h1 with h1
    subst h1
    decide
  exact ⟨s1, h1, h3, h2.trans (by decide)⟩

/-! ## C19: undefined trap vectors -/

/-- The TRAP handler on a vector outside 0x20..0x25 only writes the link. -/
theorem op_TRAP_undefined (instr : Nat) (t : VM)
    (hvec : instr &&& 0xFF < 0x20 ∨ 0x25 < instr &&& 0xFF) :
    op_TRAP instr t = .ok { t with reg := wr t.reg R_R7 (t.reg R_PC) } := by
  unfold op_TRAP
  simp only
  split
  all_goals rename_i h
  all_goals first
    | (exfalso; omega)
    | rfl

/-- C19: when the fetched instruction is a TRAP whose low 8 bits are not one of
0x20..0x25, the step completes (it does not abort), writes nothing to the console,
consumes no input and no keyboard poll, leaves `running`, memory, R0..R6 and the
condition register unchanged; PC becomes the incremented counter and R7 is set to it. -/
theorem C19_undefined_trap_ignored (s : VM) (hop : (fetch s).1 >>> 12 = OP_TRAP)
    (hvec : (fetch s).1 &&& 0xFF < 0x20 ∨ 0x25 < (fetch s).1 &&& 0xFF) :
    ∃ s1, step s = .ok s1 ∧
      s1.out = s.out ∧ s1.stdin = s.stdin ∧ s1.polls = s.polls ∧
      s1.running = s.running ∧ s1.mem = s.mem ∧
      (∀ r, r ≤ 6 → s1.reg r = s.reg r) ∧ s1.reg R_COND = s.reg R_COND ∧
      s1.reg R_PC = (s.reg R_PC + 1) % 65536 ∧ s1.reg R_R7 = (s.reg R_PC + 1) % 65536 := by
  have hpc : s.reg R_PC ≠ MR_KBSR :=
    fetch_pc_ne_kbsr s (by rw [hop]; decide) (by rw [hop]; decide)
  rw [step_of_ne s hpc]
  rw [fetch_fst_of_ne s hpc] at hop hvec
  rw [exec_TRAP _ _ hop, op_TRAP_undefined _ _ hvec]
  refine ⟨_, rfl, rfl, rfl, rfl, rfl, rfl, ?_, ?_, ?_, ?_⟩ <;> dsimp only
  · intro r hr
    rw [wr_ne _ _ _ _ (by unfold R_R7; omega), wr_ne _ _ _ _ (by unfold R_PC; omega)]
  · rw [wr_ne _ _ _ _ (by decide), wr_ne _ _ _ _ (by decide)]
  · rw [wr_ne _ _ _ _ (by decide), wr_same]
  · rw [wr_same, wr_same]

/-- Instance of C19: `TRAP 0x26` at 0x3000 with input waiting leaves the input, the
console and `running` alone and sets `R7 = PC = 0x3001`. -/
theorem C19_undefined_trap_ignored_witness :
    ∃ s1, step (mk_state [(0x3000, 0xF026)] [(R_PC, 0x3000), (R_COND, FL_ZRO)] [0x41] [true]) =
        .ok s1 ∧
      s1.out = [] ∧ s1.stdin = [0x41] ∧ s1.running = true ∧ s1.reg R_R7 = 0x3001 := by
  obtain ⟨s1, h1, h2, h3, _, h4, _, _, _, _, h5⟩ :=
    C19_undefined_trap_ignored
      (mk_state [(0x3000, 0xF026)] [(R_PC, 0x3000), (R_COND, FL_ZRO)] [0x41] [true])
      (by decide) (Or.inr (by decide))
  exact ⟨s1, h1, h2, h3, h4, h5.trans (by decide)⟩

/-! ## C20: unconditional and never-taken branches -/

/-- The condition register of a state reached from the initial state of `main` holds one
of the three flags (the invariant, as a lemma for what follows). -/
theorem reachable_cond_flags (mem : Nat → Nat) (stdin : List Nat) (polls : List Bool)
    (char_signed : Bool) (s : VM) (h : Reachable mem stdin polls char_signed s) :
    s.reg R_COND = FL_POS ∨ s.reg R_COND = FL_ZRO ∨ s.reg R_COND = FL_NEG := by
  induction h with
  | init => right; left; simp [main_init, wr]
  | step s s1 _ hstep ih =>
    rcases step_cond s s1 hstep with h1 | h1
    · rw [h1]; exact ih
    · exact h1

/-- C20: in every state reached from the initial state of `main` by completed steps,
whatever the memory and the input, a fetched BR with condition field 0b111 completes with
PC = `(P + extend pcoffset9 9) % 2^16`, `P` being the program counter after the fetch
increment (the branch is taken), and a fetched BR with condition field 0b000 completes
with PC = `P` (the branch is not taken). -/
theorem C20_branch_always_never (mem : Nat → Nat) (stdin : List Nat) (polls : List Bool)
    (char_signed : Bool) (s : VM) (h : Reachable mem stdin polls char_signed s)
    (hop : (fetch s).1 >>> 12 = OP_BR)
    (hc : ((fetch s).1 >>> 9) &&& 0x7 = 7 ∨ ((fetch s).1 >>> 9) &&& 0x7 = 0) :
    ∃ s1, step s = .ok s1 ∧
      s1.reg R_PC =
        if ((fetch s).1 >>> 9) &&& 0x7 = 7 then
          ((s.reg R_PC + 1) % 65536 + extend ((fetch s).1 &&& 0x1FF) 9) % 65536
        else
          (s.reg R_PC + 1) % 65536 := by
  obtain ⟨s1, h1, h2⟩ := step_BR s hop
  refine ⟨s1, h1, ?_⟩
  rw [h2]
  rcases hc with hc | hc
  · have hflag : 7 &&& s.reg R_COND ≠ 0 := by
      rcases reachable_cond_flags mem stdin polls char_signed s h with h3 | h3 | h3 <;>
        rw [h3] <;> decide
    rw [hc, if_pos hflag, if_pos rfl]
    omega
  · rw [hc, Nat.zero_and, if_neg (by decide), if_neg (by decide)]

/-- Instance of C20: `BRnzp #5` at 0x3000 in the initial state goes to 0x3006. -/
theorem C20_branch_always_never_witness :
    ∃ s1, step (main_init (cells_of [(0x3000, 0x0E05)]) [] [] true) = .ok s1 ∧
      s1.reg R_PC = 0x3006 := by
  obtain ⟨s1, h1, h2⟩ :=
    C20_branch_always_never (cells_of [(0x3000, 0x0E05)]) [] [] true _ Reachable.init
      (by decide) (Or.inl (by decide))
  exact ⟨s1, h1, h2.trans (by decide)⟩

end Vmra
